import Mathlib

/-!
Verification development for the LawSage backend.

We give a shallow embedding, over `List Char` strings and rational
numbers, of the algorithmic core of the repository:

* `api/services/hybrid_search.py` — reciprocal rank fusion;
* `api/services/verification_service.py` — citation verification,
  circular (Shepardizing) resolution, confidence scoring;
* `api/utils/__init__.py` — rate-limit classification and bounded retry;
* `api/processor.py` — the response hardener (`ResponseValidator`);
* `api/workflow.py` — the agent state, its reducer-based merge, the
  researcher and senior-attorney node patches, and the conditional
  routers of the compiled graph.

Python strings are modelled as `List Char`; Python floats as `ℚ`
(the arithmetic facts proved here — exact ties of reciprocal sums,
monotonicity, caps — also hold for IEEE doubles on the concrete values
involved); wall-clock timestamps and the external HTTP / LLM / pydantic
collaborators are passed in as explicit parameters or oracle functions.
Whitespace predicates cover the characters Python's `str.isspace` and
`re` module treat as whitespace; ASCII-only side conditions appear on
universal theorems wherever Unicode case-mapping could make the model
diverge from CPython.
-/

namespace LawSage

/-- Convert a Lean string literal to the `List Char` representation used
throughout the embedding. -/
def sChars (s : String) : List Char := s.data

/-- The characters Python's `str.isspace` (and the `re` module's
whitespace class on `str` patterns) treats as whitespace. -/
def pySpaceChars : List Char :=
  [' ', '\t', '\n', '\r', '\x0b', '\x0c',
   '\x1c', '\x1d', '\x1e', '\x1f', '\x85', '\xa0',
   '\u1680', '\u2000', '\u2001', '\u2002', '\u2003', '\u2004',
   '\u2005', '\u2006', '\u2007', '\u2008', '\u2009', '\u200a',
   '\u2028', '\u2029', '\u202f', '\u205f', '\u3000']

/-- Python whitespace test (`str.isspace` on a single character). -/
def isPySpace (c : Char) : Bool := pySpaceChars.contains c

/-- The characters `str.splitlines` treats as line boundaries. -/
def lineBreakChars : List Char :=
  ['\n', '\r', '\x0b', '\x0c', '\x1c', '\x1d', '\x1e', '\x85',
   '\u2028', '\u2029']

/-- Line-boundary test for `str.splitlines`. -/
def isLineBreak (c : Char) : Bool := lineBreakChars.contains c

/-- Python `str.lstrip()` (no argument): drop leading whitespace. -/
def pstripLeft (l : List Char) : List Char := l.dropWhile isPySpace

/-- Python `str.rstrip()` (no argument): drop trailing whitespace. -/
def pstripRight (l : List Char) : List Char :=
  (l.reverse.dropWhile isPySpace).reverse

/-- Python `str.strip()` (no argument). -/
def pstrip (l : List Char) : List Char := pstripRight (pstripLeft l)

/-- Python `str.splitlines()`, with an accumulator for the current line
(kept reversed).  `\r\n` counts as a single boundary; a trailing
boundary does not produce a final empty line. -/
def splitlinesAux : List Char → List Char → List (List Char)
  | [], acc => if acc.isEmpty then [] else [acc.reverse]
  | '\r' :: '\n' :: t, acc => acc.reverse :: splitlinesAux t []
  | c :: t, acc =>
    if isLineBreak c then acc.reverse :: splitlinesAux t []
    else splitlinesAux t (c :: acc)

/-- Python `str.splitlines()`. -/
def splitlines (l : List Char) : List (List Char) := splitlinesAux l []

/-- ASCII lower-casing, the fragment of Python `str.lower` the
disclaimer keyword scan relies on. -/
def lowerAscii (c : Char) : Char :=
  if 'A' ≤ c ∧ c ≤ 'Z' then Char.ofNat (c.toNat + 32) else c

/-- Python `str.lower` on the ASCII fragment. -/
def lowerStr (l : List Char) : List Char := l.map lowerAscii

/-- Python substring test `needle in haystack`. -/
def hasSubstr (needle : List Char) : List Char → Bool
  | [] => needle.isEmpty
  | c :: t => needle.isPrefixOf (c :: t) || hasSubstr needle t

/-- Join a list of strings with a separator (Python `sep.join(parts)`). -/
def joinSep (sep : List Char) : List (List Char) → List Char
  | [] => []
  | [x] => x
  | x :: y :: t => x ++ sep ++ joinSep sep (y :: t)

/-! ## `api/services/verification_service.py` -/

/-- `VerificationService.calculate_confidence_score`.  The unused first
parameter mirrors the Python signature's `cit` argument; counts are
naturals and float arithmetic is modelled exactly over `ℚ`. -/
def calculate_confidence_score (_cit : List Char)
    (courtlistener_count : Nat) (grounding_consistency : ℚ) : ℚ :=
  let cl_score : ℚ := if courtlistener_count > 0 then 1 else 0
  let cl_weight : ℚ := 2/5 + min (1/10) ((courtlistener_count : ℚ) * (1/100))
  let grounding_weight : ℚ := 1 - cl_weight
  cl_score * cl_weight + grounding_consistency * grounding_weight

/-- The `cl_weight` subexpression of `calculate_confidence_score`,
named so the spec's monotonicity and cap statements can refer to it. -/
def cl_weight (courtlistener_count : Nat) : ℚ :=
  2/5 + min (1/10) ((courtlistener_count : ℚ) * (1/100))

/-- Modelled from the spec's formula text (section 4.2): `score =
clScore*clWeight + consistency*(1-clWeight)` with `clScore = 1.0` iff
the index returned at least one hit.  Used to compare the code's
`calculate_confidence_score` against the spec's wording. -/
def spec_confidence_score (resultCount : Nat) (consistency : ℚ) : ℚ :=
  let clScore : ℚ := if resultCount ≥ 1 then 1 else 0
  let clWeight : ℚ := 2/5 + min (1/10) ((resultCount : ℚ) * (1/100))
  clScore * clWeight + consistency * (1 - clWeight)

/-- Result dictionary of `check_negative_treatment` /
`circular_verification`.  Keys the Python dict may lack are modelled by
the defaults the code's `.get` calls supply (`is_valid` true,
empty strings, absent replacement). -/
structure NegTreatmentResult where
  is_valid : Bool
  status : List Char
  explanation : List Char
  replacement_citation : Option (List Char)
  is_circular_invalid : Bool
deriving DecidableEq

/-- The dict returned by `circular_verification` once `depth > 2`. -/
def max_depth_result : NegTreatmentResult :=
  { is_valid := true, status := sChars "MAX_DEPTH_REACHED",
    explanation := [], replacement_citation := none,
    is_circular_invalid := false }

/-- Python truthiness of `status_res.get("replacement_citation")`:
present and non-empty. -/
def replacementTruthy (r : Option (List Char)) : Bool :=
  match r with
  | none => false
  | some s => !s.isEmpty

/-- `VerificationService.circular_verification`.  The external
`check_negative_treatment` lookup (two LLM calls) is the oracle
parameter, keyed by citation text; the jurisdiction is fixed inside the
oracle.  Recursion mirrors the `depth > 2` guard of the source. -/
def circular_verification (oracle : List Char → NegTreatmentResult)
    (citation : List Char) (depth : Nat) : NegTreatmentResult :=
  if depth > 2 then max_depth_result
  else
    let status_res := oracle citation
    match status_res.replacement_citation with
    | none => status_res
    | some repl =>
      if !status_res.is_valid && !repl.isEmpty then
        let circular_res := circular_verification oracle repl (depth + 1)
        if !circular_res.is_valid then
          { status_res with
            explanation := status_res.explanation
              ++ sChars " ALSO, the overruling case " ++ repl
              ++ sChars " is itself " ++ circular_res.status ++ sChars "!",
            is_circular_invalid := true }
        else status_res
      else status_res
termination_by 3 - depth
decreasing_by
  simp_wf
  omega

/-- Number of `check_negative_treatment` lookups performed by
`circular_verification` (one per non-short-circuited activation). -/
def circular_verification_calls (oracle : List Char → NegTreatmentResult)
    (citation : List Char) (depth : Nat) : Nat :=
  if depth > 2 then 0
  else
    let status_res := oracle citation
    match status_res.replacement_citation with
    | none => 1
    | some repl =>
      if !status_res.is_valid && !repl.isEmpty then
        1 + circular_verification_calls oracle repl (depth + 1)
      else 1
termination_by 3 - depth
decreasing_by
  simp_wf
  omega

/-- Outcome of the CourtListener HTTP search in
`VerificationService.verify_citation`: a status code plus parsed
`count`, an `httpx.RequestError`/`TimeoutException`, or another
exception. -/
inductive LookupOutcome where
  | response (status_code : Nat) (count : Nat)
  | requestError (msg : List Char)
  | otherError (msg : List Char)
deriving DecidableEq

/-- The dict returned by `verify_citation`; keys a branch does not set
are `none`. -/
structure VerifyCitationResult where
  verified : Bool
  status : List Char
  count : Option Nat
  error : Option (List Char)
deriving DecidableEq

/-- `VerificationService.verify_citation`.  `api_key_present` models
`self.api_key` being set; when it is not, no HTTP request happens. -/
def verify_citation (api_key_present : Bool) (outcome : LookupOutcome) :
    VerifyCitationResult :=
  if !api_key_present then
    { verified := false, status := sChars "PENDING_MANUAL_VERIFICATION",
      count := none, error := some (sChars "API Key missing") }
  else
    match outcome with
    | .response code count =>
      if code = 200 then
        if count > 0 then
          { verified := true, status := sChars "VERIFIED",
            count := some count, error := none }
        else
          { verified := false, status := sChars "NOT_FOUND",
            count := some 0, error := none }
      else if code ≥ 500 ∨ code = 429 then
        { verified := false, status := sChars "PENDING_MANUAL_VERIFICATION",
          count := none, error := some (sChars "API status error") }
      else
        { verified := false, status := sChars "ERROR",
          count := none, error := some (sChars "API status error") }
    | .requestError m =>
      { verified := false, status := sChars "PENDING_MANUAL_VERIFICATION",
        count := none, error := some m }
    | .otherError m =>
      { verified := false, status := sChars "ERROR",
        count := none, error := some m }

/-- The "authority index unreachable" condition of the spec: missing
API key, network error or timeout, HTTP 5xx, or HTTP 429. -/
def unreachableCondition (api_key_present : Bool) (outcome : LookupOutcome) :
    Prop :=
  api_key_present = false ∨
    (match outcome with
     | .response code _ => 500 ≤ code ∨ code = 429
     | .requestError _ => True
     | .otherError _ => False)

/-! ## `api/utils/__init__.py` -/

/-- `is_rate_limit_error`: the exception is modelled by its `str`. -/
def is_rate_limit_error (e : List Char) : Bool :=
  let msg := lowerStr e
  hasSubstr (sChars "429") msg || hasSubstr (sChars "quota exceeded") msg ||
    hasSubstr (sChars "rate limit") msg

/-- `generate_content_with_retry` under tenacity's
`stop_after_attempt(2)`, `retry_if_exception(is_rate_limit_error)` and
`reraise=True`: the underlying generation call is the attempt-indexed
oracle `gen` (backoff sleeping has no effect on values). -/
def generate_content_with_retry {α : Type}
    (gen : Nat → Except (List Char) α) : Except (List Char) α :=
  match gen 1 with
  | .ok v => .ok v
  | .error e =>
    if is_rate_limit_error e then
      match gen 2 with
      | .ok v => .ok v
      | .error e2 => .error e2
    else .error e

/-- Number of generation attempts `generate_content_with_retry` makes. -/
def generate_attempts {α : Type} (gen : Nat → Except (List Char) α) : Nat :=
  match gen 1 with
  | .ok _ => 1
  | .error e => if is_rate_limit_error e then 2 else 1

/-! ## `api/services/hybrid_search.py`

`HybridSearchService.reciprocal_rank_fusion` identifies a document with
its `page_content` (the code's own comment: "Using content as ID for
simplicity"), so documents are modelled by their content strings.  The
insertion-ordered Python dict `fused_scores` is an association list
that updates in place and appends new keys; `sorted(..., reverse=True)`
is a stable descending sort, realised here as insertion sort from the
right with ties keeping the earlier element first. -/

/-- `fused_scores[doc_id] = fused_scores.get(doc_id, 0) + v` on an
insertion-ordered dict. -/
def addScore : List (List Char × ℚ) → List Char → ℚ → List (List Char × ℚ)
  | [], d, v => [(d, v)]
  | (key, s) :: t, d, v =>
    if key = d then (key, s + v) :: t else (key, s) :: addScore t d v

/-- One `for rank, doc in enumerate(results)` pass of the fusion,
adding `1 / (rank + k)` for each document. -/
def rrfPass (k : Nat) : List (List Char) → Nat → List (List Char × ℚ) →
    List (List Char × ℚ)
  | [], _, scores => scores
  | d :: t, rank, scores =>
    rrfPass k t (rank + 1) (addScore scores d (1 / ((rank : ℚ) + (k : ℚ))))

/-- Insert into a descending-by-score list, before the first entry of
score not greater than ours (stability: equal scores keep the earlier
element first once the whole list is built by `foldr`). -/
def insertByScoreDesc (x : List Char × ℚ) :
    List (List Char × ℚ) → List (List Char × ℚ)
  | [] => [x]
  | y :: t => if x.2 ≥ y.2 then x :: y :: t else y :: insertByScoreDesc x t

/-- Python's stable `sorted(..., key=score, reverse=True)`. -/
def sortByScoreDesc (l : List (List Char × ℚ)) : List (List Char × ℚ) :=
  l.foldr insertByScoreDesc []

/-- `HybridSearchService.reciprocal_rank_fusion(vector_results,
bm25_results, k)`: the vector pass runs first, then the lexical (BM25)
pass, then the keys are re-sorted by fused score. -/
def reciprocal_rank_fusion (vector_results bm25_results : List (List Char))
    (k : Nat) : List (List Char) :=
  let scores := rrfPass k bm25_results 0 (rrfPass k vector_results 0 [])
  (sortByScoreDesc scores).map Prod.fst

/-- The `fused_scores` dict after both enumeration passes of
`reciprocal_rank_fusion` (vector pass first, then BM25). -/
def fusedScores (vector_results bm25_results : List (List Char)) (k : Nat) :
    List (List Char × ℚ) :=
  rrfPass k bm25_results 0 (rrfPass k vector_results 0 [])

/-- Score looked up in the fused dict (`0` when absent, matching
`fused_scores.get(doc_id, 0)`). -/
def lookupScore (scores : List (List Char × ℚ)) (d : List Char) : ℚ :=
  match scores with
  | [] => 0
  | (key, s) :: t => if key = d then s else lookupScore t d

/-- First-seen deduplication order: the key order of an
insertion-ordered dict filled from `docs` in sequence. -/
def firstSeen (acc : List (List Char)) : List (List Char) → List (List Char)
  | [] => acc
  | d :: t => firstSeen (if d ∈ acc then acc else acc ++ [d]) t

/-- 0-based rank of a document in a best-first result list (index of
its first occurrence). -/
def rankOf (x : List Char) : List (List Char) → Nat
  | [] => 0
  | d :: t => if d = x then 0 else rankOf x t + 1

/-- Modelled from the spec's RRF wording (section 4.3): each distinct
document scores the sum of `1/(rank+k)` over the input lists containing
it, ranks 0-based. -/
def spec_rrf_score (vec lex : List (List Char)) (k : Nat) (d : List Char) : ℚ :=
  (if d ∈ vec then 1 / ((rankOf d vec : ℚ) + (k : ℚ)) else 0) +
    (if d ∈ lex then 1 / ((rankOf d lex : ℚ) + (k : ℚ)) else 0)

/-! ## `api/processor.py` — `ResponseValidator` -/

/-- `ResponseValidator.STANDARD_DISCLAIMER`. -/
def STANDARD_DISCLAIMER : List Char :=
  sChars "LEGAL DISCLAIMER: I am an AI helping you represent yourself Pro Se. This is legal information, not legal advice. Always consult with a qualified attorney.\n\n"

/-- The disclaimer text without its trailing blank line (it contains no
newline of its own). -/
def DISCLAIMER_BODY : List Char :=
  sChars "LEGAL DISCLAIMER: I am an AI helping you represent yourself Pro Se. This is legal information, not legal advice. Always consult with a qualified attorney."

/-- The default filings message of `_validate_and_fix_legacy`. -/
def NO_FILINGS_MSG : List Char :=
  sChars "No filings generated. Please try a more specific request or check the strategy tab."

/-- Horizontal-rule characters of the delimiter regex class `[-*_]`. -/
def isHr (c : Char) : Bool := c = '-' || c = '*' || c = '_'

/-- Scan a leading whitespace run, returning the suffix that follows
the last newline inside it (`best` tracks the candidate so far).  This
realises the backtracking of the trailing regex fragment of the
delimiter pattern, where the greedy whitespace star gives back
characters until the final mandatory newline matches. -/
def afterLastNlInWs : List Char → Option (List Char) → Option (List Char)
  | [], best => best
  | c :: t, best =>
    if isPySpace c then afterLastNlInWs t (if c = '\n' then some t else best)
    else best

/-- Try to match the compiled pattern of `_validate_and_fix_legacy`'s
`delimiter_pattern` — newline, whitespace star, three-plus characters
from `[-*_]`, whitespace star, newline — at the head of `l`.  Because
the whitespace class and the rule class are disjoint, the greedy stars
are forced up to the final-newline backtracking handled by
`afterLastNlInWs`.  Returns the text after the match. -/
def matchDelimAt (l : List Char) : Option (List Char) :=
  match l with
  | '\n' :: rest =>
    let afterWs := rest.dropWhile isPySpace
    if 3 ≤ (afterWs.takeWhile isHr).length then
      afterLastNlInWs (afterWs.dropWhile isHr) none
    else none
  | _ => none

/-- `re.search` for the delimiter pattern: leftmost match, returning
the text before the match start and after the match end. -/
def searchDelim (acc : List Char) : List Char → Option (List Char × List Char)
  | [] => none
  | c :: t =>
    match matchDelimAt (c :: t) with
    | some rest => some (acc.reverse, rest)
    | none => searchDelim (c :: acc) t

/-- `text.split(sep, 1)` when `sep` occurs: text before the first
occurrence and text after it. -/
def splitOnce (sep : List Char) (acc : List Char) :
    List Char → Option (List Char × List Char)
  | [] => none
  | c :: t =>
    if sep.isPrefixOf (c :: t) then some (acc.reverse, (c :: t).drop sep.length)
    else splitOnce sep (c :: acc) t

/-- Sentence-final punctuation of the `(?<=[.!?])\s+` lookbehind. -/
def isSentenceEnd (c : Char) : Bool := c = '.' || c = '!' || c = '?'

mutual

/-- `re.split(r'(?<=[.!?])\s+', line)`: split at each maximal
whitespace run whose preceding character is sentence-final punctuation.
`acc` is the current piece, reversed; after a boundary the rest of the
whitespace run is consumed by `splitSentencesSkip`. -/
def splitSentences (acc : List Char) : List Char → List (List Char)
  | [] => [acc.reverse]
  | c :: t =>
    if isPySpace c && (match acc with | p :: _ => isSentenceEnd p | [] => false) then
      acc.reverse :: splitSentencesSkip t
    else splitSentences (c :: acc) t

/-- Consume the remainder of a whitespace run just split on, then start
the next piece. -/
def splitSentencesSkip : List Char → List (List Char)
  | [] => [[]]
  | c :: t => if isPySpace c then splitSentencesSkip t else splitSentences [c] t

end

/-- The disclaimer keyword list of `_validate_and_fix_legacy`. -/
def legacyDisclaimerKeywords : List (List Char) :=
  [sChars "pro se", sChars "legal information", sChars "not legal advice",
   sChars "not an attorney", sChars "legal disclaimer", sChars "i am an ai"]

/-- The longer keyword list of `_remove_disclaimers_from_text`. -/
def jsonDisclaimerKeywords : List (List Char) :=
  [sChars "pro se", sChars "legal information", sChars "not legal advice",
   sChars "not an attorney", sChars "legal disclaimer", sChars "i am an ai",
   sChars "this is not legal advice",
   sChars "consult with a qualified attorney"]

/-- `any(kw in s_lower for kw in disclaimer_keywords)` for the legacy
keyword list. -/
def hasLegacyKeyword (s : List Char) : Bool :=
  legacyDisclaimerKeywords.any (fun kw => hasSubstr kw (lowerStr s))

/-- Keyword test of `_remove_disclaimers_from_text`. -/
def hasJsonKeyword (s : List Char) : Bool :=
  jsonDisclaimerKeywords.any (fun kw => hasSubstr kw (lowerStr s))

/-- The per-line sentence filter of `_validate_and_fix_legacy`: split
into sentences, drop those containing a disclaimer keyword, rejoin with
single spaces; `none` when no sentence survives (the line is dropped). -/
def filterLineSentences (line : List Char) : Option (List Char) :=
  let filtered := (splitSentences [] line).filter (fun s => !hasLegacyKeyword s)
  if filtered.isEmpty then none else some (joinSep (sChars " ") filtered)

/-- The line loop of `_validate_and_fix_legacy`: blank (whitespace-only)
lines are kept as empty lines, others pass the sentence filter. -/
def legacyCleanLines : List (List Char) → List (List Char)
  | [] => []
  | line :: t =>
    if (pstrip line).isEmpty then [] :: legacyCleanLines t
    else
      match filterLineSentences line with
      | none => legacyCleanLines t
      | some cl => cl :: legacyCleanLines t

/-- The strategy/filings split of `_validate_and_fix_legacy`: regex
delimiter first, then a plain `"---" in text` fallback, else the whole
text is strategy; empty filings fall back to `NO_FILINGS_MSG`. -/
def legacySplit (text : List Char) : List Char × List Char :=
  match searchDelim [] text with
  | some (before, after) =>
    let fp := pstrip after
    (pstrip before, if fp.isEmpty then NO_FILINGS_MSG else fp)
  | none =>
    match splitOnce (sChars "---") [] text with
    | some (a, b) =>
      let fp := pstrip b
      (pstrip a, if fp.isEmpty then NO_FILINGS_MSG else fp)
    | none => (pstrip text, NO_FILINGS_MSG)

/-- The cleaned strategy content computed by `_validate_and_fix_legacy`
before the standard disclaimer is prepended. -/
def legacyStrategyContent (text : List Char) : List Char :=
  let strategy_part := (legacySplit text).1
  let working_strategy :=
    if STANDARD_DISCLAIMER.isPrefixOf strategy_part then
      pstrip (strategy_part.drop STANDARD_DISCLAIMER.length)
    else strategy_part
  pstrip (joinSep (sChars "\n") (legacyCleanLines (splitlines working_strategy)))

/-- `ResponseValidator._validate_and_fix_legacy`. -/
def validate_and_fix_legacy (text : List Char) : List Char :=
  STANDARD_DISCLAIMER ++ legacyStrategyContent text ++ sChars "\n\n---\n\n"
    ++ (legacySplit text).2

/-- `api/schemas.py` `Citation`. -/
structure CitationRec where
  text : List Char
  source : Option (List Char)
  url : Option (List Char)
  is_verified : Bool
  verification_source : Option (List Char)

/-- `api/schemas.py` `StrategyItem`. -/
structure StrategyItem where
  step : Int
  title : List Char
  description : List Char
  estimated_time : Option (List Char)
  required_documents : List (List Char)
  due_date_placeholder : Option (List Char)
  status : List Char

/-- `api/schemas.py` `LegalOutput`.  Note the schema has no
`adversarial_strategy`, `procedural_checks` or `local_logistics`
fields, although `processor.py` reads those attributes. -/
structure LegalOutput where
  disclaimer : List Char
  strategy : List Char
  roadmap : List StrategyItem
  filing_template : List Char
  citations : List CitationRec
  sources : List (List Char)

/-- Result of `LegalOutput.model_validate_json` under pydantic v2: a
parsed model, a `pydantic.ValidationError` (raised both for malformed
JSON and for schema mismatches), or a `json.JSONDecodeError` (which
pydantic v2 never actually raises; the code's fallback branch for it is
dead, as the repository's own `test_reliability_layer.py` comments). -/
inductive PydanticParse where
  | ok (p : LegalOutput)
  | validationError (msg : List Char)
  | jsonDecodeError

/-- `ResponseValidator.validate_and_fix` on a string argument, with the
pydantic parser as oracle.  Exceptions escaping the method are
`Except.error`.  On a successful parse with at least three citations
the source next evaluates `parsed_data.adversarial_strategy`
(line 126), an attribute `api/schemas.py`'s `LegalOutput` does not
declare, so pydantic raises `AttributeError` there. -/
def validate_and_fix (parse : List Char → PydanticParse) (content : List Char) :
    Except (List Char) (List Char) :=
  let content_stripped := pstrip content
  if content_stripped.head? = some '\x7b' ∨ content_stripped.head? = some '[' then
    match parse content with
    | .ok p =>
      if p.citations.length < 3 then
        .error (sChars "Response must contain at least 3 citations, got "
          ++ sChars (toString p.citations.length))
      else
        .error (sChars "AttributeError: adversarial_strategy")
    | .validationError msg => .error msg
    | .jsonDecodeError => .ok (validate_and_fix_legacy content)
  else .ok (validate_and_fix_legacy content)

/-- A pydantic oracle that rejects every input with a
`ValidationError`; this is the behaviour of
`LegalOutput.model_validate_json` on any string that is not a valid
JSON encoding of the schema — in particular on the one-character
input consisting of an opening curly brace. -/
def pydanticRejectsAll : List Char → PydanticParse :=
  fun _ => .validationError (sChars "pydantic validation error")

/-- A hardened strategy section on which the legacy pass is invariant:
nonempty ASCII text whose only whitespace is single spaces (so it is a
single stripped line with stable sentence splits), that does not begin
with a horizontal-rule character and contains no disclaimer keyword. -/
def cleanStrategy (S : List Char) : Bool :=
  !S.isEmpty &&
  S.all (fun c => c.toNat < 128) &&
  S.all (fun c => !isPySpace c || c = ' ') &&
  (match S.head? with | some c => !isHr c && !isPySpace c | none => false) &&
  (match S.getLast? with | some c => !isPySpace c | none => false) &&
  !hasSubstr (sChars "  ") S &&
  !hasLegacyKeyword S

/-- A hardened filings section the legacy pass passes through
verbatim: nonempty and stripped (first and last characters are not
whitespace). -/
def cleanFilings (F : List Char) : Bool :=
  !F.isEmpty &&
  (match F.head? with | some c => !isPySpace c | none => false) &&
  (match F.getLast? with | some c => !isPySpace c | none => false)

/-- A concrete model answer used to witness hardener facts. -/
def hardenedSample : List Char :=
  sChars "The statute of limitations bars this claim. File a demurrer within 30 days."

/-! ## `api/workflow.py` -/

/-- A grounding-chunk source, `dict(title=..., uri=...)`. -/
structure SourceRec where
  title : List Char
  uri : List Char
deriving DecidableEq

/-- An entry of `grounding_audit_log`: node name, query, raw result
sample.  The wall-clock `timestamp` is supplied by the caller. -/
structure AuditEntry where
  node : List Char
  query : List Char
  raw_results : List (List Char)
  timestamp : List Char
deriving DecidableEq

/-- The fields of `AgentState` relevant to the modelled nodes and
routers.  LangGraph states are dicts, so fields may be absent: absence
of a list-valued field is observationally the empty list under the
code's `state.get(k, [])`/truthiness accesses, while `is_approved` is
kept as an `Option` because `state.get("is_approved", True)` (in the
researcher) and `state.get("is_approved")` (in the senior-attorney
router) use different defaults. -/
structure AgentState where
  user_input : List Char
  jurisdiction : List Char
  grounding_data : List Char
  research_results : List Char
  counter_grounding_results : List Char
  sources : List SourceRec
  unverified_citations : List (List Char)
  reasoning_mismatches : List (List Char)
  procedural_violations : List (List Char)
  missing_info_prompt : List Char
  discovery_questions : List (List Char)
  fallacies_found : List (List Char)
  shadow_brief : List Char
  final_output : List Char
  thinking_steps : List (List Char)
  grounding_audit_log : List AuditEntry
  is_approved : Option Bool

/-- A node's returned dict: a partial update.  `thinking_steps` and
`grounding_audit_log` are the two fields annotated with
`operator.add` in `AgentState`, so their patch entries are lists to be
appended; every other field, when present, overwrites. -/
structure StatePatch where
  research_results : Option (List Char) := none
  counter_grounding_results : Option (List Char) := none
  sources : Option (List SourceRec) := none
  unverified_citations : Option (List (List Char)) := none
  reasoning_mismatches : Option (List (List Char)) := none
  procedural_violations : Option (List (List Char)) := none
  missing_info_prompt : Option (List Char) := none
  discovery_questions : Option (List (List Char)) := none
  fallacies_found : Option (List (List Char)) := none
  shadow_brief : Option (List Char) := none
  final_output : Option (List Char) := none
  is_approved : Option Bool := none
  thinking_steps : List (List Char) := []
  grounding_audit_log : List AuditEntry := []

/-- LangGraph's per-field reducer merge: `operator.add` (append) for
the two annotated accumulator fields, last-writer-wins for the rest. -/
def applyPatch (s : AgentState) (p : StatePatch) : AgentState :=
  { user_input := s.user_input
    jurisdiction := s.jurisdiction
    grounding_data := s.grounding_data
    research_results := p.research_results.getD s.research_results
    counter_grounding_results :=
      p.counter_grounding_results.getD s.counter_grounding_results
    sources := p.sources.getD s.sources
    unverified_citations := p.unverified_citations.getD s.unverified_citations
    reasoning_mismatches := p.reasoning_mismatches.getD s.reasoning_mismatches
    procedural_violations :=
      p.procedural_violations.getD s.procedural_violations
    missing_info_prompt := p.missing_info_prompt.getD s.missing_info_prompt
    discovery_questions := p.discovery_questions.getD s.discovery_questions
    fallacies_found := p.fallacies_found.getD s.fallacies_found
    shadow_brief := p.shadow_brief.getD s.shadow_brief
    final_output := p.final_output.getD s.final_output
    thinking_steps := s.thinking_steps ++ p.thinking_steps
    grounding_audit_log := s.grounding_audit_log ++ p.grounding_audit_log
    is_approved :=
      match p.is_approved with
      | none => s.is_approved
      | some b => some b }

/-- The grounded-generation response consumed by the researcher node:
text parts, grounding-chunk sources and their raw printouts, plus the
wall clock read for the audit entry. -/
structure ResearchResponse where
  research_output : List Char
  sources : List SourceRec
  raw_results : List (List Char)
  timestamp : List Char

/-- The `researcher` node body (`create_researcher_node`), with the
retried generation call abstracted into `resp`.  In the adversarial
branch (entered after a senior-attorney rejection) the patch appends to
the existing `sources`; in the normal branch it overwrites them. -/
def researcher (resp : ResearchResponse) (s : AgentState) : StatePatch :=
  let query :=
    if s.missing_info_prompt.isEmpty then s.user_input else s.missing_info_prompt
  let full_query := query ++ sChars " in " ++ s.jurisdiction
  let is_adversarial := !(s.is_approved.getD true)
  let thinking_step :=
    if is_adversarial then
      sChars "Researcher: Performing Counter-Grounding search for adversarial precedents..."
    else sChars "Researcher: Searching legal databases..."
  let audit_entry : AuditEntry :=
    { node := sChars "researcher", query := full_query,
      raw_results := resp.raw_results.take 3, timestamp := resp.timestamp }
  if is_adversarial then
    { counter_grounding_results :=
        some (pstrip (s.counter_grounding_results ++ sChars "\n"
          ++ resp.research_output))
      sources := some (s.sources ++ resp.sources)
      thinking_steps := [thinking_step]
      grounding_audit_log := [audit_entry]
      missing_info_prompt := some [] }
  else
    { research_results :=
        some (pstrip (s.research_results ++ sChars "\n" ++ resp.research_output))
      sources := some resp.sources
      thinking_steps := [thinking_step]
      grounding_audit_log := [audit_entry]
      missing_info_prompt := some [] }

/-- The pydantic `SeniorAttorneyResponse` model. -/
structure SeniorAttorneyResponse where
  is_approved : Bool
  fallacies_found : List (List Char)
  missing_rebuttals : List (List Char)
  shadow_brief : List Char
  feedback : List Char

/-- The `senior_attorney` node body (`create_senior_attorney_node`).
`parsed` models `response.parsed`; `json_fallback` models the
`json.loads` + `SeniorAttorneyResponse(**data)` rescue, `none` when it
raises.  When both fail the hard-coded default response (approve, empty
feedback and lists) is used. -/
def senior_attorney (parsed json_fallback : Option SeniorAttorneyResponse)
    (_s : AgentState) : StatePatch :=
  let res : SeniorAttorneyResponse :=
    match parsed with
    | some r => r
    | none =>
      match json_fallback with
      | some r => r
      | none =>
        { is_approved := true, fallacies_found := [], missing_rebuttals := [],
          shadow_brief := [], feedback := [] }
  let feedback :=
    if !res.missing_rebuttals.isEmpty then
      res.feedback ++ sChars "\n\nMISSING REBUTTALS/ANTICIPATORY DEFENSES:\n"
        ++ joinSep (sChars "\n")
            (res.missing_rebuttals.map (fun r => sChars "- " ++ r))
    else res.feedback
  { is_approved := some res.is_approved
    fallacies_found := some res.fallacies_found
    shadow_brief := some res.shadow_brief
    missing_info_prompt := some (if !res.is_approved then feedback else [])
    thinking_steps :=
      [sChars "Senior Attorney: Red-Teaming for strategic holes and generating Shadow Brief..."] }

/-- The unverified-citation entry the verifier records for a
`PENDING_MANUAL_VERIFICATION` lookup (workflow.py line 516). -/
def pending_manual_entry (cit : List Char) : List Char :=
  sChars "PENDING_MANUAL: " ++ cit

/-- Router results: the next node name or LangGraph's `END`. -/
inductive RouteTarget where
  | researcher
  | senior_attorney
  | finished
deriving DecidableEq

/-- `should_continue`, the conditional edge after
`ProceduralSanityCheck`: loop back to the researcher on unresolved
citation or procedural problems unless more than 20 thinking steps have
accumulated. -/
def should_continue (s : AgentState) : RouteTarget :=
  let has_unverified := !s.unverified_citations.isEmpty
  let has_violations := !s.procedural_violations.isEmpty
  if has_unverified || has_violations then
    if s.thinking_steps.length > 20 then .senior_attorney
    else .researcher
  else .senior_attorney

/-- `senior_attorney_should_continue`: loop back to the researcher
whenever `state.get("is_approved")` is falsy, otherwise `END`. -/
def senior_attorney_should_continue (s : AgentState) : RouteTarget :=
  if !(s.is_approved.getD false) then .researcher else .finished

/-- `interrogator_should_continue`: halt (surface the questions) when
the interrogator produced any, else continue to research. -/
def interrogator_should_continue (s : AgentState) : RouteTarget :=
  if !s.discovery_questions.isEmpty then .finished else .researcher

/-- The nodes of the compiled graph in `create_workflow`. -/
inductive NodeName where
  | interrogator
  | researcher
  | procedural_guide
  | reasoner
  | fact_law_matrix
  | drafter
  | formatter
  | verifier
  | proceduralSanityCheck
  | senior_attorney
deriving DecidableEq

/-- The edge table of `create_workflow`: after running `n` on merged
state `s`, the next node (`none` is `END`). -/
def routeAfter (n : NodeName) (s : AgentState) : Option NodeName :=
  match n with
  | .interrogator =>
    match interrogator_should_continue s with
    | .finished => none
    | _ => some .researcher
  | .researcher => some .procedural_guide
  | .procedural_guide => some .reasoner
  | .reasoner => some .fact_law_matrix
  | .fact_law_matrix => some .drafter
  | .drafter => some .formatter
  | .formatter => some .verifier
  | .verifier => some .proceduralSanityCheck
  | .proceduralSanityCheck =>
    match should_continue s with
    | .researcher => some .researcher
    | _ => some .senior_attorney
  | .senior_attorney =>
    match senior_attorney_should_continue s with
    | .researcher => some .researcher
    | _ => none

/-- A behaviour for the LLM-backed nodes: the patch each node returns
from a given state. -/
def NodeEnv : Type := NodeName → AgentState → StatePatch

/-- The LangGraph execution loop: run the current node, merge its patch
through the per-field reducers, follow the conditional edge; `none`
when the fuel runs out before `END` is reached. -/
def runWorkflow (env : NodeEnv) : Nat → NodeName → AgentState →
    Option AgentState
  | 0, _, _ => none
  | fuel + 1, n, s =>
    let s' := applyPatch s (env n s)
    match routeAfter n s' with
    | none => some s'
    | some n' => runWorkflow env fuel n' s'

/-- The adversarial behaviour of the spec's termination test: the
interrogator finds no questions, the verifier always reports an
unresolved (pending) citation, and the senior attorney always rejects
the draft.  Every node contributes its thinking step, mirroring the
source patches. -/
def alwaysRejectEnv : NodeEnv :=
  fun n s =>
    match n with
    | .interrogator =>
      { discovery_questions := some []
        thinking_steps := [sChars "Interrogator: Analyzing case for factual gaps..."] }
    | .researcher =>
      researcher
        { research_output := [], sources := [], raw_results := [],
          timestamp := [] } s
    | .procedural_guide =>
      { thinking_steps := [sChars "Procedural Engine: Identifying court rules..."] }
    | .reasoner =>
      { thinking_steps := [sChars "Reasoner: Developing legal strategy..."] }
    | .fact_law_matrix =>
      { thinking_steps := [sChars "Fact-Law Matrix: Mapping evidence to legal elements..."] }
    | .drafter =>
      { thinking_steps := [sChars "Drafter: Preparing IRAC memo and Exhibit List..."] }
    | .formatter =>
      { thinking_steps := [sChars "Formatter: Generating documents from templates..."] }
    | .verifier =>
      { unverified_citations := some [pending_manual_entry (sChars "X v. Y")]
        reasoning_mismatches := some []
        missing_info_prompt :=
          some (sChars "Address the following citation and reasoning issues: PENDING_MANUAL: X v. Y")
        thinking_steps := [sChars "Verifier: Shepardizing citations and performing Reasoning-Based Validation..."] }
    | .proceduralSanityCheck =>
      { procedural_violations := some []
        thinking_steps := [sChars "Procedural Sanity Check: Verifying jurisdiction-specific formatting and local rules..."] }
    | .senior_attorney =>
      senior_attorney
        (some
          { is_approved := false, fallacies_found := [],
            missing_rebuttals := [], shadow_brief := [],
            feedback := sChars "Rejected." })
        none s

/-! ## Concrete data for witnesses and counterexamples -/

/-- A `check_negative_treatment` behaviour in which every citation is
overruled and names itself as its replacement: the worst case for
circular resolution (an infinite cyclic chain of invalid
replacements). -/
def cyclicOverruledOracle : List Char → NegTreatmentResult := fun c =>
  { is_valid := false, status := sChars "OVERRULED",
    explanation := sChars "Overruled by a later case.",
    replacement_citation := some c, is_circular_invalid := false }

/-- An empty agent state, the basis for concrete scenarios. -/
def baseState : AgentState :=
  { user_input := [], jurisdiction := [], grounding_data := [],
    research_results := [], counter_grounding_results := [], sources := [],
    unverified_citations := [], reasoning_mismatches := [],
    procedural_violations := [], missing_info_prompt := [],
    discovery_questions := [], fallacies_found := [], shadow_brief := [],
    final_output := [], thinking_steps := [], grounding_audit_log := [],
    is_approved := none }

/-- A mid-run state holding one previously gathered source, about to
re-enter the researcher on a verifier-triggered loop-back (so
`is_approved` has never been set). -/
def oneSourceState : AgentState :=
  { baseState with
    user_input := sChars "My landlord changed the locks.",
    jurisdiction := sChars "California",
    sources := [{ title := sChars "California Courts",
                  uri := sChars "https://courts.ca.gov" }],
    thinking_steps := [sChars "step"] }

/-- A grounded-generation response whose candidate carries no grounding
chunks: the researcher then collects an empty `sources` list. -/
def noChunksResponse : ResearchResponse :=
  { research_output := sChars "No results found.", sources := [],
    raw_results := [], timestamp := sChars "2026-01-01T00:00:00" }

/-- A verifier-produced state in which the only unresolved citation is
a pending-manual-verification entry and the run is young (two thinking
steps). -/
def allPendingState : AgentState :=
  { baseState with
    unverified_citations := [pending_manual_entry (sChars "People v. Doe")],
    thinking_steps := [sChars "step1", sChars "step2"] }

/-- A verifier-produced all-pending state late in a run: more than 20
thinking steps have accumulated. -/
def allPendingLateState : AgentState :=
  { baseState with
    unverified_citations := [pending_manual_entry (sChars "People v. Doe")],
    thinking_steps := List.replicate 21 (sChars "step") }

/-- A generation behaviour that is rate-limited on the first attempt
and succeeds on the second. -/
def rateLimitedGen : Nat → Except (List Char) Nat :=
  fun attempt =>
    if attempt = 1 then
      .error (sChars "429 RESOURCE_EXHAUSTED: Quota exceeded for model")
    else .ok 7

/-! # Theorems -/

/-- C5: `calculate_confidence_score` equals the spec's formula
(`clScore*clWeight + consistency*(1-clWeight)` with `clScore = 1` iff
at least one hit), `cl_weight` is monotone in the result count, and
`cl_weight` never exceeds `0.5`. -/
theorem confidence_score_formula_monotone_capped
    (cit : List Char) (n m : Nat) (consistency : ℚ) (h : n ≤ m) :
    calculate_confidence_score cit n consistency =
        spec_confidence_score n consistency ∧
    cl_weight n ≤ cl_weight m ∧ cl_weight n ≤ 1/2 := by
  refine ⟨rfl, ?_, ?_⟩
  · unfold cl_weight
    have hc : (n : ℚ) * (1/100) ≤ (m : ℚ) * (1/100) := by
      have : (n : ℚ) ≤ (m : ℚ) := by exact_mod_cast h
      linarith
    have := min_le_min (le_refl (1/10 : ℚ)) hc
    linarith
  · unfold cl_weight
    have := min_le_left (1/10 : ℚ) ((n : ℚ) * (1/100))
    linarith

/-- Witness for C5 at result counts 0 and 10 and consistency 1/2. -/
theorem confidence_score_witness :
    (0 : Nat) ≤ 10 ∧
      (calculate_confidence_score (sChars "Roe v. Wade") 0 (1/2) =
          spec_confidence_score 0 (1/2) ∧
        cl_weight 0 ≤ cl_weight 10 ∧ cl_weight 0 ≤ 1/2) :=
  ⟨by norm_num,
   confidence_score_formula_monotone_capped (sChars "Roe v. Wade")
     0 10 (1/2) (by norm_num)⟩

/-- Helper: the lookup count of `circular_verification` is bounded by
the remaining depth budget `3 - d`. -/
theorem circular_verification_calls_le (k : Nat) :
    ∀ (oracle : List Char → NegTreatmentResult) (cit : List Char) (d : Nat),
      3 - d ≤ k → circular_verification_calls oracle cit d ≤ 3 - d := by
  induction k with
  | zero =>
    intro oracle cit d hd
    have hgt : d > 2 := by omega
    unfold circular_verification_calls
    simp [hgt]
  | succ k ih =>
    intro oracle cit d hd
    unfold circular_verification_calls
    by_cases hgt : d > 2
    · simp [hgt]
    · simp only [hgt, if_false]
      split
      · omega
      · rename_i repl hrc
        split
        · have hrec := ih oracle repl (d + 1) (by omega)
          omega
        · omega

/-- C6: for every oracle behaviour (including cyclic replacement
chains) `circular_verification` is total; activations beyond depth 2
return `MAX_DEPTH_REACHED` without consulting the authority oracle; a
full resolution performs at most 3 lookups (depths 0, 1, 2); and when
the immediate replacement is itself invalid, both facts are folded into
one explanation on the returned record. -/
theorem circular_verification_depth_bounded
    (oracle : List Char → NegTreatmentResult) (cit : List Char) :
    (∀ d, 2 < d →
      circular_verification oracle cit d = max_depth_result ∧
      circular_verification_calls oracle cit d = 0) ∧
    circular_verification_calls oracle cit 0 ≤ 3 ∧
    (∀ repl, (oracle cit).is_valid = false →
      (oracle cit).replacement_citation = some repl → repl ≠ [] →
      (circular_verification oracle repl 1).is_valid = false →
      circular_verification oracle cit 0 =
        { oracle cit with
          explanation := (oracle cit).explanation
            ++ sChars " ALSO, the overruling case " ++ repl
            ++ sChars " is itself "
            ++ (circular_verification oracle repl 1).status ++ sChars "!",
          is_circular_invalid := true }) := by
  refine ⟨?_, ?_, ?_⟩
  · intro d hd
    constructor
    · unfold circular_verification
      simp [hd]
    · unfold circular_verification_calls
      simp [hd]
  · exact circular_verification_calls_le 3 oracle cit 0 (by norm_num)
  · intro repl hv hr hne hrec
    have hne' : repl.isEmpty = false := by
      cases repl with
      | nil => exact absurd rfl hne
      | cons a t => rfl
    have hcond : (!(oracle cit).is_valid && !repl.isEmpty) = true := by
      rw [hv, hne']
      rfl
    conv_lhs => rw [circular_verification]
    rw [if_neg (by omega : ¬ (0 : Nat) > 2)]
    simp only [hr, hcond, if_true, hrec, Bool.not_false, Nat.zero_add]

/-- Witness for C6: the cyclic always-overruled oracle at a concrete
citation; the depth-1 re-verification is itself invalid and the
depth-0 result folds both facts. -/
theorem circular_verification_depth_bounded_witness :
    (circular_verification cyclicOverruledOracle (sChars "A v. B") 1).is_valid
        = false ∧
    circular_verification cyclicOverruledOracle (sChars "A v. B") 0 =
      { cyclicOverruledOracle (sChars "A v. B") with
        explanation := (cyclicOverruledOracle (sChars "A v. B")).explanation
          ++ sChars " ALSO, the overruling case " ++ sChars "A v. B"
          ++ sChars " is itself "
          ++ (circular_verification cyclicOverruledOracle (sChars "A v. B") 1).status
          ++ sChars "!",
        is_circular_invalid := true } := by
  have hv1 :
      (circular_verification cyclicOverruledOracle (sChars "A v. B") 1).is_valid
        = false := by
    simp [circular_verification, cyclicOverruledOracle, max_depth_result]
    decide
  exact ⟨hv1,
    (circular_verification_depth_bounded cyclicOverruledOracle
        (sChars "A v. B")).2.2 (sChars "A v. B") rfl rfl (by decide) hv1⟩

/-- C9: `generate_content_with_retry` makes at most two attempts; a
first-attempt success is returned as is; a first-attempt failure that
`is_rate_limit_error` does not classify as rate limiting propagates
immediately with no second attempt; and a rate-limited first attempt is
retried exactly once, the run then standing or falling with the second
attempt. -/
theorem generate_retry_bounded_and_classified {α : Type}
    (gen : Nat → Except (List Char) α) :
    generate_attempts gen ≤ 2 ∧
    (∀ v, gen 1 = .ok v →
      generate_content_with_retry gen = .ok v ∧ generate_attempts gen = 1) ∧
    (∀ e, gen 1 = .error e → is_rate_limit_error e = false →
      generate_content_with_retry gen = .error e ∧
        generate_attempts gen = 1) ∧
    (∀ e, gen 1 = .error e → is_rate_limit_error e = true →
      generate_content_with_retry gen = gen 2 ∧
        generate_attempts gen = 2) := by
  refine ⟨?_, ?_, ?_, ?_⟩
  · unfold generate_attempts
    cases h : gen 1 with
    | ok v => simp
    | error e =>
      simp only [h]
      split <;> norm_num
  · intro v hv
    unfold generate_content_with_retry generate_attempts
    simp [hv]
  · intro e he hcl
    unfold generate_content_with_retry generate_attempts
    simp [he, hcl]
  · intro e he hcl
    unfold generate_content_with_retry generate_attempts
    simp only [he, hcl, if_true]
    cases h2 : gen 2 with
    | ok v => simp
    | error e2 => simp

/-- Witness for C9: a first attempt failing with a 429 quota message is
retried and the call returns the second attempt's success. -/
theorem generate_retry_witness :
    rateLimitedGen 1 =
        .error (sChars "429 RESOURCE_EXHAUSTED: Quota exceeded for model") ∧
    is_rate_limit_error
        (sChars "429 RESOURCE_EXHAUSTED: Quota exceeded for model") = true ∧
    generate_content_with_retry rateLimitedGen = rateLimitedGen 2 ∧
    generate_attempts rateLimitedGen = 2 :=
  ⟨rfl, by decide,
   (generate_retry_bounded_and_classified rateLimitedGen).2.2.2 _ rfl
     (by decide)⟩

/-- C10: when the senior-attorney response has no parsed object and the
raw-text JSON rescue also fails, the node's patch approves the draft
with empty feedback, fallacy and rebuttal data, and the router then
takes the terminal edge instead of looping back to the researcher. -/
theorem unparseable_senior_review_approves (s : AgentState) :
    (senior_attorney none none s).is_approved = some true ∧
    (senior_attorney none none s).fallacies_found = some [] ∧
    (senior_attorney none none s).shadow_brief = some [] ∧
    (senior_attorney none none s).missing_info_prompt = some [] ∧
    senior_attorney_should_continue (applyPatch s (senior_attorney none none s))
      = RouteTarget.finished := by
  refine ⟨rfl, rfl, rfl, rfl, ?_⟩
  simp [senior_attorney, applyPatch, senior_attorney_should_continue]

/-- Counterexample to C3 as stated: `sources` is not an accumulator.
On a verifier-triggered loop-back (`is_approved` never set) the
researcher's normal branch overwrites `sources` with the fresh
grounding chunks, so a response without chunks shrinks the merged
`sources` from one element to none. -/
theorem sources_shrink_on_researcher_overwrite :
    oneSourceState.sources ≠ [] ∧
    (applyPatch oneSourceState
        (researcher noChunksResponse oneSourceState)).sources = [] := by
  constructor
  · decide
  · rfl

/-- C3 as amended: the two fields `AgentState` actually annotates with
`operator.add` — `thinking_steps` and `grounding_audit_log` — never
shrink under the reducer merge: whatever patch a node returns, the
pre-merge list is a prefix of the post-merge list, so its length never
drops and every element survives.  `sources`, carrying no annotation,
is overwritten by the last writer and has no such guarantee (the
researcher's adversarial branch preserves it only by explicitly
appending inside the patch). -/
theorem accumulator_fields_never_shrink (s : AgentState) (p : StatePatch) :
    s.thinking_steps <+: (applyPatch s p).thinking_steps ∧
    s.grounding_audit_log <+: (applyPatch s p).grounding_audit_log ∧
    s.thinking_steps.length ≤ (applyPatch s p).thinking_steps.length ∧
    s.grounding_audit_log.length ≤ (applyPatch s p).grounding_audit_log.length ∧
    (∀ x ∈ s.thinking_steps, x ∈ (applyPatch s p).thinking_steps) ∧
    (∀ e ∈ s.grounding_audit_log, e ∈ (applyPatch s p).grounding_audit_log) := by
  refine ⟨List.prefix_append _ _, List.prefix_append _ _, ?_, ?_, ?_, ?_⟩
  · simp [applyPatch]
  · simp [applyPatch]
  · intro x hx
    simp [applyPatch]
    exact Or.inl hx
  · intro e he
    simp [applyPatch]
    exact Or.inl he

/-- Counterexample to C4 as stated: pending-manual verification results
are not treated as non-retryable for loop purposes.  A state whose only
unresolved citations are `PENDING_MANUAL` entries still routes the
conditional edge back to the researcher while the step count is under
the ceiling. -/
theorem pending_manual_still_loops_back :
    allPendingState.unverified_citations =
        [pending_manual_entry (sChars "People v. Doe")] ∧
    allPendingState.thinking_steps.length ≤ 20 ∧
    should_continue allPendingState = RouteTarget.researcher := by
  refine ⟨rfl, by decide, rfl⟩

/-- C4 as amended: whenever the authority index is unreachable
(missing API key, network error or timeout, HTTP 5xx or 429),
`verify_citation` reports `verified=false` with status
`PENDING_MANUAL_VERIFICATION` and never `VERIFIED`; and the resulting
loop-back is bounded not by treating the condition as non-retryable but
by the step ceiling: once more than 20 thinking steps have accumulated,
`should_continue` stops routing to the researcher. -/
theorem unreachable_index_pending_and_ceiling_bounded
    (key : Bool) (o : LookupOutcome) (s : AgentState)
    (hu : unreachableCondition key o) (hs : 20 < s.thinking_steps.length) :
    (verify_citation key o).verified = false ∧
    (verify_citation key o).status = sChars "PENDING_MANUAL_VERIFICATION" ∧
    (verify_citation key o).status ≠ sChars "VERIFIED" ∧
    should_continue s ≠ RouteTarget.researcher := by
  have hmain : (verify_citation key o).verified = false ∧
      (verify_citation key o).status = sChars "PENDING_MANUAL_VERIFICATION" := by
    rcases hu with hk | ho
    · subst hk
      exact ⟨rfl, rfl⟩
    · cases o with
      | response code count =>
        have hne : code ≠ 200 := by
          rcases ho with h5 | h429 <;> omega
        have hcond : code ≥ 500 ∨ code = 429 := ho
        cases key with
        | false => exact ⟨rfl, rfl⟩
        | true =>
          unfold verify_citation
          simp [hne, hcond]
      | requestError m =>
        cases key with
        | false => exact ⟨rfl, rfl⟩
        | true => exact ⟨rfl, rfl⟩
      | otherError m => exact absurd ho not_false
  refine ⟨hmain.1, hmain.2, ?_, ?_⟩
  · rw [hmain.2]
    decide
  · unfold should_continue
    split
    · simp [hs]
    · simp

/-- Witness for C4 (amended) at a network timeout and a late-run
all-pending state. -/
theorem unreachable_index_pending_witness :
    unreachableCondition true (.requestError (sChars "Connection timed out")) ∧
    20 < allPendingLateState.thinking_steps.length ∧
    ((verify_citation true
        (.requestError (sChars "Connection timed out"))).verified = false ∧
      (verify_citation true
        (.requestError (sChars "Connection timed out"))).status =
          sChars "PENDING_MANUAL_VERIFICATION" ∧
      (verify_citation true
        (.requestError (sChars "Connection timed out"))).status ≠
          sChars "VERIFIED" ∧
      should_continue allPendingLateState ≠ RouteTarget.researcher) :=
  ⟨Or.inr trivial, by decide,
   unreachable_index_pending_and_ceiling_bounded true _ allPendingLateState
     (Or.inr trivial) (by decide)⟩

/-- C1 is false of the code: the senior-attorney loop-back edge is not
gated by the step-count ceiling.  Under the claim's own scenario — the
verifier always leaves an unresolved citation and the senior attorney
always rejects — the compiled graph never reaches `END`, however much
fuel the run is given, from any state and any node: the run cycles
researcher → … → senior_attorney → researcher forever
(`senior_attorney_should_continue` consults only `is_approved`). -/
theorem always_rejecting_senior_attorney_never_terminates
    (fuel : Nat) (n : NodeName) (s : AgentState) :
    runWorkflow alwaysRejectEnv fuel n s = none := by
  induction fuel generalizing n s with
  | zero => rfl
  | succ k ih =>
    cases n with
    | interrogator =>
      show runWorkflow alwaysRejectEnv (k + 1) .interrogator s = none
      simp only [runWorkflow, routeAfter, alwaysRejectEnv, applyPatch,
        interrogator_should_continue]
      exact ih _ _
    | researcher => exact ih _ _
    | procedural_guide => exact ih _ _
    | reasoner => exact ih _ _
    | fact_law_matrix => exact ih _ _
    | drafter => exact ih _ _
    | formatter => exact ih _ _
    | verifier => exact ih _ _
    | proceduralSanityCheck =>
      show runWorkflow alwaysRejectEnv (k + 1) .proceduralSanityCheck s = none
      simp only [runWorkflow, routeAfter]
      cases h : should_continue
          (applyPatch s (alwaysRejectEnv NodeName.proceduralSanityCheck s)) <;>
        simp only [h] <;> exact ih _ _
    | senior_attorney =>
      show runWorkflow alwaysRejectEnv (k + 1) .senior_attorney s = none
      simp only [runWorkflow, routeAfter, alwaysRejectEnv, applyPatch,
        senior_attorney, senior_attorney_should_continue]
      exact ih _ _

/-! ### Reciprocal rank fusion lemmas (C2) -/

/-- Updating one key of the fused-score dict adds `v` to that key's
score and leaves every other lookup unchanged. -/
theorem lookupScore_addScore (sc : List (List Char × ℚ)) (d : List Char)
    (v : ℚ) (x : List Char) :
    lookupScore (addScore sc d v) x =
      lookupScore sc x + (if x = d then v else 0) := by
  induction sc with
  | nil =>
    simp only [addScore, lookupScore]
    by_cases h : d = x
    · subst h
      simp
    · rw [if_neg h, if_neg (fun hh : x = d => h hh.symm)]
      simp
  | cons p t ih =>
    obtain ⟨key, s⟩ := p
    simp only [addScore]
    by_cases hk : key = d
    · subst hk
      simp only [if_pos rfl, lookupScore]
      by_cases hx : key = x
      · subst hx
        simp
      · rw [if_neg hx, if_neg hx, if_neg (fun hh : x = key => hx hh.symm)]
        simp
    · simp only [if_neg hk, lookupScore]
      by_cases hx : key = x
      · have hxd : ¬ x = d := fun hh => hk (hx.trans hh)
        rw [if_pos hx, if_pos hx, if_neg hxd]
        simp
      · rw [if_neg hx, if_neg hx, ih]

/-- One enumeration pass of the fusion adds exactly the reciprocal of
`start + rank + k` for the (unique) position of each document in the
pass list. -/
theorem lookupScore_rrfPass (k : Nat) (docs : List (List Char))
    (hnd : docs.Nodup) (r : Nat) (sc : List (List Char × ℚ))
    (x : List Char) :
    lookupScore (rrfPass k docs r sc) x =
      lookupScore sc x +
        (if x ∈ docs then
          1 / (((r + rankOf x docs : Nat) : ℚ) + (k : ℚ)) else 0) := by
  induction docs generalizing r sc with
  | nil => simp [rrfPass]
  | cons d t ih =>
    have hnd' : t.Nodup := hnd.of_cons
    by_cases hx : x = d
    · subst hx
      have hxt : x ∉ t := (List.nodup_cons.mp hnd).1
      rw [rrfPass, ih hnd', lookupScore_addScore]
      simp [hxt, rankOf]
    · rw [rrfPass, ih hnd', lookupScore_addScore]
      have hidx : rankOf x (d :: t) = rankOf x t + 1 := by
        rw [rankOf, if_neg (fun h : d = x => hx h.symm)]
      by_cases hmem : x ∈ t
      · have hmem' : x ∈ d :: t := List.mem_cons_of_mem _ hmem
        simp only [hx, if_false, hmem, if_true, hmem', hidx, add_zero]
        have harith : r + 1 + rankOf x t = r + (rankOf x t + 1) := by omega
        rw [harith]
      · have hno : x ∉ d :: t := by
          simp [hx, hmem]
        simp [hx, hmem, hno]

/-- Key order of the fused dict after one update: existing keys stay
in place, a new key is appended. -/
theorem keys_addScore (sc : List (List Char × ℚ)) (d : List Char) (v : ℚ) :
    (addScore sc d v).map Prod.fst =
      if d ∈ sc.map Prod.fst then sc.map Prod.fst
      else sc.map Prod.fst ++ [d] := by
  induction sc with
  | nil => simp [addScore]
  | cons p t ih =>
    obtain ⟨key, s⟩ := p
    by_cases hk : key = d
    · subst hk
      simp [addScore]
    · simp only [addScore, hk, if_false, List.map_cons]
      rw [ih]
      have hdk : ¬ d = key := fun h => hk h.symm
      by_cases hmem : d ∈ t.map Prod.fst
      · rw [if_pos hmem, if_pos (List.mem_cons_of_mem _ hmem)]
      · rw [if_neg hmem, if_neg (by simp [hdk, hmem]), List.cons_append]

/-- Key order after a whole enumeration pass is the first-seen fold. -/
theorem keys_rrfPass (k : Nat) (docs : List (List Char)) (r : Nat)
    (sc : List (List Char × ℚ)) :
    (rrfPass k docs r sc).map Prod.fst = firstSeen (sc.map Prod.fst) docs := by
  induction docs generalizing r sc with
  | nil => simp [rrfPass, firstSeen]
  | cons d t ih =>
    rw [rrfPass, ih, firstSeen, keys_addScore]

/-- Folding first-seen order over a concatenation. -/
theorem firstSeen_append (a b : List (List Char)) (acc : List (List Char)) :
    firstSeen acc (a ++ b) = firstSeen (firstSeen acc a) b := by
  induction a generalizing acc with
  | nil => simp [firstSeen]
  | cons d t ih => rw [List.cons_append, firstSeen, firstSeen, ih]

/-- The first-seen key list never repeats a key. -/
theorem firstSeen_nodup (docs : List (List Char)) (acc : List (List Char))
    (hacc : acc.Nodup) : (firstSeen acc docs).Nodup := by
  induction docs generalizing acc with
  | nil => exact hacc
  | cons d t ih =>
    rw [firstSeen]
    by_cases hmem : d ∈ acc
    · simp only [hmem, if_true]
      exact ih acc hacc
    · simp only [hmem, if_false]
      refine ih _ ?_
      simp [List.nodup_append, hacc, hmem]

/-- Descending insertion keeps membership: it is a permutation of
consing. -/
theorem insertByScoreDesc_perm (x : List Char × ℚ)
    (l : List (List Char × ℚ)) : (insertByScoreDesc x l).Perm (x :: l) := by
  induction l with
  | nil => simp [insertByScoreDesc]
  | cons y t ih =>
    rw [insertByScoreDesc]
    by_cases h : x.2 ≥ y.2
    · simp [h]
    · simp only [h, if_false]
      exact (List.Perm.cons y ih).trans (List.Perm.swap x y t)

/-- The stable sort is a permutation of its input. -/
theorem sortByScoreDesc_perm (l : List (List Char × ℚ)) :
    (sortByScoreDesc l).Perm l := by
  induction l with
  | nil => rfl
  | cons x t ih =>
    exact (insertByScoreDesc_perm x (sortByScoreDesc t)).trans
      (List.Perm.cons x ih)

/-- Descending insertion preserves descending pairwise order. -/
theorem insertByScoreDesc_pairwise (x : List Char × ℚ)
    (l : List (List Char × ℚ))
    (hl : List.Pairwise (fun a b => b.2 ≤ a.2) l) :
    List.Pairwise (fun a b => b.2 ≤ a.2) (insertByScoreDesc x l) := by
  induction l with
  | nil => simp [insertByScoreDesc]
  | cons y t ih =>
    rw [insertByScoreDesc]
    by_cases h : x.2 ≥ y.2
    · simp only [h, if_true]
      refine List.Pairwise.cons ?_ hl
      intro z hz
      rcases List.mem_cons.mp hz with hz | hz
      · subst hz
        exact h
      · exact le_trans ((List.pairwise_cons.mp hl).1 z hz) h
    · simp only [h, if_false]
      have hy := (List.pairwise_cons.mp hl).1
      refine List.Pairwise.cons ?_ (ih (List.pairwise_cons.mp hl).2)
      intro z hz
      have := (insertByScoreDesc_perm x t).mem_iff.mp hz
      rcases List.mem_cons.mp this with hz' | hz'
      · subst hz'
        exact le_of_not_ge h
      · exact hy z hz'

/-- The fused result is sorted descending by score. -/
theorem sortByScoreDesc_pairwise (l : List (List Char × ℚ)) :
    List.Pairwise (fun a b => b.2 ≤ a.2) (sortByScoreDesc l) := by
  induction l with
  | nil => simp [sortByScoreDesc]
  | cons x t ih => exact insertByScoreDesc_pairwise x _ ih

/-- Stability of descending insertion: restricted to any one score
level, insertion prepends the new element exactly when it carries that
score and disturbs nothing else. -/
theorem filter_insertByScoreDesc (q : ℚ) (x : List Char × ℚ)
    (l : List (List Char × ℚ)) :
    (insertByScoreDesc x l).filter (fun p => p.2 = q) =
      if x.2 = q then x :: l.filter (fun p => p.2 = q)
      else l.filter (fun p => p.2 = q) := by
  induction l with
  | nil =>
    by_cases h : x.2 = q <;> simp [insertByScoreDesc, h]
  | cons y t ih =>
    rw [insertByScoreDesc]
    by_cases h : x.2 ≥ y.2
    · rw [if_pos h]
      by_cases hx : x.2 = q <;> simp [List.filter_cons, hx]
    · rw [if_neg h]
      by_cases hy : y.2 = q
      · have hx : ¬ x.2 = q := fun hx => h (by rw [hx, hy])
        simp [List.filter_cons, hy, hx, ih]
      · simp [List.filter_cons, hy, ih]

/-- Stability of the whole sort: each score level keeps its original
(first-seen) order. -/
theorem filter_sortByScoreDesc (q : ℚ) (l : List (List Char × ℚ)) :
    (sortByScoreDesc l).filter (fun p => p.2 = q) =
      l.filter (fun p => p.2 = q) := by
  induction l with
  | nil => rfl
  | cons x t ih =>
    rw [sortByScoreDesc, List.foldr_cons]
    rw [show List.foldr insertByScoreDesc [] t = sortByScoreDesc t from rfl]
    rw [filter_insertByScoreDesc]
    by_cases h : x.2 = q <;> simp [List.filter_cons, h, ih]

/-- Counterexample to C2 as stated: in the spec's own scenario —
lexical `[D1,D2,D3]`, vector `[D2,D1,D4]`, `k = 60` — D1 and D2 do tie
at `1/60 + 1/61` and rank ahead of D3 and D4, but the fused ranking is
`[D2, D1, D4, D3]`: the tie-break places D2 (vector list) before D1,
because `reciprocal_rank_fusion` iterates `vector_results` first when
filling the insertion-ordered score dict, and Python's stable
descending sort keeps that first-seen order among equals. -/
theorem rrf_tie_break_puts_vector_list_first :
    reciprocal_rank_fusion [sChars "D2", sChars "D1", sChars "D4"]
        [sChars "D1", sChars "D2", sChars "D3"] 60 =
      [sChars "D2", sChars "D1", sChars "D4", sChars "D3"] ∧
    spec_rrf_score [sChars "D2", sChars "D1", sChars "D4"]
        [sChars "D1", sChars "D2", sChars "D3"] 60 (sChars "D1") =
      1/60 + 1/61 ∧
    spec_rrf_score [sChars "D2", sChars "D1", sChars "D4"]
        [sChars "D1", sChars "D2", sChars "D3"] 60 (sChars "D2") =
      1/60 + 1/61 ∧
    (reciprocal_rank_fusion [sChars "D2", sChars "D1", sChars "D4"]
        [sChars "D1", sChars "D2", sChars "D3"] 60).take 2 ≠
      [sChars "D1", sChars "D2"] := by
  have hres : reciprocal_rank_fusion [sChars "D2", sChars "D1", sChars "D4"]
      [sChars "D1", sChars "D2", sChars "D3"] 60 =
      [sChars "D2", sChars "D1", sChars "D4", sChars "D3"] := by
    simp only [reciprocal_rank_fusion, rrfPass, addScore, sortByScoreDesc,
      insertByScoreDesc, sChars]
    simp
    norm_num [insertByScoreDesc, ge_iff_le]
  refine ⟨hres, ?_, ?_, ?_⟩
  · simp only [spec_rrf_score, rankOf, sChars]
    simp
    norm_num
  · simp only [spec_rrf_score, rankOf, sChars]
    simp
    norm_num
  · rw [hres]
    simp [sChars]

/-- C2 as amended: for every pair of duplicate-free ranked lists,
the fused dict scores each distinct document by the spec's
`1/(rank+k)` sum over the lists containing it (0-based ranks); its key
order is the first-seen order with the vector list before the lexical
(BM25) list; the returned ranking is that key set sorted descending by
summed score; and the sort is stable, so score ties keep the
first-seen (vector-first) order. -/
theorem rrf_fuses_sorts_desc_ties_first_seen
    (vector_results bm25_results : List (List Char)) (k : Nat)
    (hv : vector_results.Nodup) (hl : bm25_results.Nodup) :
    (∀ d, lookupScore (fusedScores vector_results bm25_results k) d =
      spec_rrf_score vector_results bm25_results k d) ∧
    (fusedScores vector_results bm25_results k).map Prod.fst =
      firstSeen [] (vector_results ++ bm25_results) ∧
    ((fusedScores vector_results bm25_results k).map Prod.fst).Nodup ∧
    reciprocal_rank_fusion vector_results bm25_results k =
      (sortByScoreDesc (fusedScores vector_results bm25_results k)).map
        Prod.fst ∧
    List.Pairwise (fun a b => b.2 ≤ a.2)
      (sortByScoreDesc (fusedScores vector_results bm25_results k)) ∧
    (∀ q : ℚ,
      (sortByScoreDesc (fusedScores vector_results bm25_results k)).filter
          (fun p => p.2 = q) =
        (fusedScores vector_results bm25_results k).filter
          (fun p => p.2 = q)) ∧
    (sortByScoreDesc (fusedScores vector_results bm25_results k)).Perm
      (fusedScores vector_results bm25_results k) := by
  have hkeys : (fusedScores vector_results bm25_results k).map Prod.fst =
      firstSeen [] (vector_results ++ bm25_results) := by
    rw [fusedScores, keys_rrfPass, keys_rrfPass, firstSeen_append]
    rfl
  refine ⟨?_, hkeys, ?_, rfl, sortByScoreDesc_pairwise _, ?_, sortByScoreDesc_perm _⟩
  · intro d
    rw [fusedScores, lookupScore_rrfPass k bm25_results hl,
      lookupScore_rrfPass k vector_results hv, spec_rrf_score]
    simp [lookupScore]
  · rw [hkeys]
    exact firstSeen_nodup _ [] List.nodup_nil
  · intro q
    exact filter_sortByScoreDesc q _

/-- Witness for C2 (amended) at the spec scenario's lists. -/
theorem rrf_fuses_sorts_desc_witness :
    ([sChars "D2", sChars "D1", sChars "D4"] : List (List Char)).Nodup ∧
    ([sChars "D1", sChars "D2", sChars "D3"] : List (List Char)).Nodup ∧
    (∀ d, lookupScore (fusedScores [sChars "D2", sChars "D1", sChars "D4"]
        [sChars "D1", sChars "D2", sChars "D3"] 60) d =
      spec_rrf_score [sChars "D2", sChars "D1", sChars "D4"]
        [sChars "D1", sChars "D2", sChars "D3"] 60 d) ∧
    (∀ q : ℚ,
      (sortByScoreDesc (fusedScores [sChars "D2", sChars "D1", sChars "D4"]
          [sChars "D1", sChars "D2", sChars "D3"] 60)).filter
          (fun p => p.2 = q) =
        (fusedScores [sChars "D2", sChars "D1", sChars "D4"]
          [sChars "D1", sChars "D2", sChars "D3"] 60).filter
          (fun p => p.2 = q)) :=
  ⟨by simp [sChars], by simp [sChars],
   (rrf_fuses_sorts_desc_ties_first_seen _ _ 60 (by simp [sChars])
       (by simp [sChars])).1,
   (rrf_fuses_sorts_desc_ties_first_seen _ _ 60 (by simp [sChars])
       (by simp [sChars])).2.2.2.2.2.1⟩

/-! ### String lemmas for the response hardener (C7, C8) -/

/-- `hasSubstr` agrees with the infix relation. -/
theorem hasSubstr_iff (n l : List Char) : hasSubstr n l = true ↔ n <:+: l := by
  induction l with
  | nil =>
    simp only [hasSubstr, List.isEmpty_iff]
    constructor
    · intro h
      simp [h]
    · intro h
      simpa using List.sublist_nil.mp h.sublist
  | cons c t ih =>
    simp only [hasSubstr, Bool.or_eq_true, List.isPrefixOf_iff_prefix, ih]
    exact (List.infix_cons_iff).symm

/-- A needle placed between two strings is found by `hasSubstr`. -/
theorem hasSubstr_sandwich (n a b : List Char) :
    hasSubstr n (a ++ n ++ b) = true :=
  (hasSubstr_iff n _).mpr ⟨a, b, by simp⟩

/-- Lower-casing a substring occurrence survives: keyword scans are
monotone under taking substrings. -/
theorem hasLegacyKeyword_mono (p l : List Char) (h : p <:+: l)
    (hp : hasLegacyKeyword p = true) : hasLegacyKeyword l = true := by
  obtain ⟨a, b, hab⟩ := h
  unfold hasLegacyKeyword at hp ⊢
  rw [List.any_eq_true] at hp ⊢
  obtain ⟨kw, hkw, hsub⟩ := hp
  refine ⟨kw, hkw, ?_⟩
  rw [hasSubstr_iff] at hsub ⊢
  obtain ⟨x, y, hxy⟩ := hsub
  refine ⟨lowerStr a ++ x, y ++ lowerStr b, ?_⟩
  subst hab
  unfold lowerStr at hxy ⊢
  rw [List.map_append, List.map_append, ← hxy]
  simp

/-- Dropping leading whitespace does nothing when the head is not
whitespace. -/
theorem pstripLeft_cons_of_not_space (c : Char) (t : List Char)
    (h : isPySpace c = false) : pstripLeft (c :: t) = c :: t := by
  unfold pstripLeft
  rw [List.dropWhile_cons, h]
  rfl

/-- Dropping trailing whitespace does nothing when the last character
is not whitespace. -/
theorem pstripRight_eq_self (l : List Char)
    (h : ∀ c, l.getLast? = some c → isPySpace c = false) :
    pstripRight l = l := by
  unfold pstripRight
  cases hrev : l.reverse with
  | nil =>
    have h0 : l = [] := List.reverse_eq_nil_iff.mp hrev
    subst h0
    rfl
  | cons c r =>
    have hc : l.getLast? = some c := by
      rw [← List.head?_reverse, hrev]
      rfl
    rw [List.dropWhile_cons, h c hc]
    simp only [Bool.false_eq_true, if_false]
    rw [← hrev, List.reverse_reverse]

/-- `str.strip()` is the identity on strings whose first and last
characters are not whitespace. -/
theorem pstrip_eq_self (l : List Char)
    (hh : ∀ c, l.head? = some c → isPySpace c = false)
    (hl : ∀ c, l.getLast? = some c → isPySpace c = false) :
    pstrip l = l := by
  cases l with
  | nil => rfl
  | cons c t =>
    unfold pstrip
    rw [pstripLeft_cons_of_not_space c t (hh c rfl)]
    exact pstripRight_eq_self _ hl

/-- The delimiter pattern requires a newline at the match position. -/
theorem matchDelimAt_cons_ne (c : Char) (t : List Char) (h : c ≠ '\n') :
    matchDelimAt (c :: t) = none := by
  unfold matchDelimAt
  split
  · rename_i rest heq
    cases heq
    exact absurd rfl h
  · rfl

/-- `re.search` skips a region in which no position matches. -/
theorem searchDelim_skip (pre : List Char) (rest : List Char)
    (h : ∀ a b, pre = a ++ b → b ≠ [] → matchDelimAt (b ++ rest) = none) :
    ∀ acc, searchDelim acc (pre ++ rest) = searchDelim (pre.reverse ++ acc) rest := by
  induction pre with
  | nil => intro acc; simp
  | cons c t ih =>
    intro acc
    rw [List.cons_append, searchDelim]
    have hm := h [] (c :: t) rfl (by simp)
    rw [List.cons_append] at hm
    rw [hm]
    rw [ih (fun a b hab hb => h (c :: a) b (by rw [hab, List.cons_append]) hb)
        (c :: acc)]
    simp

/-- The delimiter matcher at a newline, with the pattern's forced
greedy structure spelled out. -/
theorem matchDelimAt_cons_nl (r : List Char) :
    matchDelimAt ('\n' :: r) =
      (if 3 ≤ ((r.dropWhile isPySpace).takeWhile isHr).length then
        afterLastNlInWs ((r.dropWhile isPySpace).dropWhile isHr) none
      else none) := rfl

/-- No match at a newline when no horizontal-rule run follows the
whitespace. -/
theorem matchDelimAt_none_of_no_rule (r : List Char)
    (h : ∀ c, (r.dropWhile isPySpace).head? = some c → isHr c = false) :
    matchDelimAt ('\n' :: r) = none := by
  rw [matchDelimAt_cons_nl]
  cases hd : r.dropWhile isPySpace with
  | nil => simp [hd]
  | cons c w =>
    have hc := h c (by rw [hd]; rfl)
    simp [List.takeWhile_cons, hc]

/-- The canonical inserted delimiter `"\n\n---\n\n"` followed by a
stripped nonempty filings part matches exactly, consuming everything up
to the filings. -/
theorem matchDelimAt_canonical (f : Char) (t : List Char)
    (hf : isPySpace f = false) :
    matchDelimAt (sChars "\n\n---\n\n" ++ (f :: t)) = some (f :: t) := by
  show matchDelimAt
      ('\n' :: '\n' :: '-' :: '-' :: '-' :: '\n' :: '\n' :: (f :: t)) =
    some (f :: t)
  rw [matchDelimAt_cons_nl]
  have h1 : isPySpace '\n' = true := by decide
  have h2 : isPySpace '-' = false := by decide
  have h3 : isHr '-' = true := by decide
  have h4 : isHr '\n' = false := by decide
  rw [List.dropWhile_cons, h1]
  simp only [if_true]
  rw [List.dropWhile_cons, h2]
  simp only [Bool.false_eq_true, if_false]
  rw [List.takeWhile_cons, h3]
  simp only [if_true]
  rw [List.takeWhile_cons, h3]
  simp only [if_true]
  rw [List.takeWhile_cons, h3]
  simp only [if_true]
  rw [List.takeWhile_cons, h4]
  simp only [Bool.false_eq_true, if_false, List.length_cons, List.length_nil]
  rw [if_pos (by omega)]
  rw [List.dropWhile_cons, h3]
  simp only [if_true]
  rw [List.dropWhile_cons, h3]
  simp only [if_true]
  rw [List.dropWhile_cons, h3]
  simp only [if_true]
  rw [List.dropWhile_cons, h4]
  simp only [Bool.false_eq_true, if_false]
  rw [afterLastNlInWs, if_pos h1]
  simp only [if_pos rfl]
  rw [afterLastNlInWs, if_pos h1]
  simp only [if_pos rfl]
  rw [afterLastNlInWs, hf]
  simp

/-- `str.splitlines` of a nonempty line-break-free string is that one
line. -/
theorem splitlinesAux_no_breaks (l : List Char)
    (h : ∀ c ∈ l, isLineBreak c = false) :
    ∀ acc, acc.isEmpty = false ∨ l ≠ [] →
      splitlinesAux l acc = [acc.reverse ++ l] := by
  induction l with
  | nil =>
    intro acc hne
    rcases hne with hne | hne
    · rw [splitlinesAux, hne]
      simp
    · exact absurd rfl hne
  | cons c t ih =>
    intro acc _
    have hc : isLineBreak c = false := h c (List.mem_cons_self c t)
    have hcr : ¬ c = '\r' := by
      intro he
      rw [he] at hc
      exact absurd hc (by decide)
    rw [splitlinesAux.eq_3 acc c t (fun t1 hc1 _ => hcr hc1), hc]
    simp only [Bool.false_eq_true, if_false]
    rw [ih (fun x hx => h x (List.mem_cons_of_mem _ hx)) (c :: acc)
      (Or.inl rfl)]
    simp

/-- `splitlines` of a nonempty break-free string. -/
theorem splitlines_single (l : List Char) (hne : l ≠ [])
    (h : ∀ c ∈ l, isLineBreak c = false) : splitlines l = [l] := by
  unfold splitlines
  rw [splitlinesAux_no_breaks l h [] (Or.inr hne)]
  rfl

/-- Unfolding the sentence splitter at nil. -/
theorem splitSentences_nil (acc : List Char) :
    splitSentences acc [] = [acc.reverse] := rfl

/-- Unfolding the sentence splitter at a cons cell. -/
theorem splitSentences_cons (acc : List Char) (c : Char) (t : List Char) :
    splitSentences acc (c :: t) =
      (if (isPySpace c &&
          (match acc with | p :: _ => isSentenceEnd p | [] => false)) = true
      then acc.reverse :: splitSentencesSkip t
      else splitSentences (c :: acc) t) := rfl

/-- Unfolding the skip phase at nil. -/
theorem splitSentencesSkip_nil : splitSentencesSkip [] = [[]] := rfl

/-- Unfolding the skip phase at a cons cell. -/
theorem splitSentencesSkip_cons (c : Char) (t : List Char) :
    splitSentencesSkip (c :: t) =
      (if isPySpace c = true then splitSentencesSkip t
      else splitSentences [c] t) := rfl

/-- The sentence splitter never returns an empty list of pieces. -/
theorem splitSentences_ne_nil (l : List Char) :
    (∀ acc, splitSentences acc l ≠ []) ∧ splitSentencesSkip l ≠ [] := by
  induction l with
  | nil =>
    constructor
    · intro acc
      simp [splitSentences_nil]
    · simp [splitSentencesSkip_nil]
  | cons c t ih =>
    constructor
    · intro acc
      rw [splitSentences_cons]
      split
      · simp
      · exact ih.1 (c :: acc)
    · rw [splitSentencesSkip_cons]
      split
      · exact ih.2
      · exact ih.1 [c]

/-- Every sentence piece is a contiguous substring of the line. -/
theorem splitSentences_infix_aux (n : Nat) :
    ∀ l : List Char, l.length ≤ n →
      (∀ acc p, p ∈ splitSentences acc l → p <:+: (acc.reverse ++ l)) ∧
      (∀ p, p ∈ splitSentencesSkip l → p <:+: l) := by
  induction n with
  | zero =>
    intro l hl
    have h0 : l = [] := List.length_eq_zero.mp (Nat.le_zero.mp hl)
    subst h0
    constructor
    · intro acc p hp
      rw [splitSentences_nil] at hp
      have hp' : p = acc.reverse := by simpa using hp
      subst hp'
      exact ⟨[], [], by simp⟩
    · intro p hp
      rw [splitSentencesSkip_nil] at hp
      have hp' : p = [] := by simpa using hp
      subst hp'
      simp
  | succ n ih =>
    intro l hl
    cases l with
    | nil => exact ih [] (by simp)
    | cons c t =>
      have ht := ih t (by simp at hl; omega)
      constructor
      · intro acc p hp
        rw [splitSentences_cons] at hp
        split at hp
        · rcases List.mem_cons.mp hp with hp' | hp'
          · subst hp'
            exact ⟨[], c :: t, by simp⟩
          · have h1 := ht.2 p hp'
            obtain ⟨u, v, huv⟩ := h1
            exact ⟨acc.reverse ++ [c] ++ u, v, by rw [← huv]; simp⟩
        · have h1 := ht.1 (c :: acc) p hp
          simpa using h1
      · intro p hp
        rw [splitSentencesSkip_cons] at hp
        split at hp
        · have h1 := ht.2 p hp
          obtain ⟨u, v, huv⟩ := h1
          exact ⟨c :: u, v, by rw [← huv]; simp⟩
        · have h1 := ht.1 [c] p hp
          simpa using h1

/-- After a sentence boundary on a single-spaced line, the skip phase
consumes nothing. -/
theorem splitSentencesSkip_eq (t : List Char)
    (h : t = [] ∨ ∃ c r, t = c :: r ∧ isPySpace c = false) :
    splitSentencesSkip t = splitSentences [] t := by
  rcases h with h | ⟨c, r, hcr, hc⟩
  · subst h
    rfl
  · subst hcr
    rw [splitSentencesSkip_cons, if_neg (by rw [hc]; simp)]
    rw [splitSentences_cons]
    simp

/-- A substring absent from a string is absent from its tail. -/
theorem hasSubstr_cons_false (n : List Char) (c : Char) (t : List Char)
    (h : hasSubstr n (c :: t) = false) : hasSubstr n t = false := by
  rw [hasSubstr] at h
  exact (Bool.or_eq_false_iff.mp h).2

/-- Rejoining the sentence pieces of a single-spaced line with single
spaces restores the line. -/
theorem splitSentences_join (l : List Char)
    (h1 : ∀ c ∈ l, isPySpace c = true → c = ' ')
    (h2 : hasSubstr (sChars "  ") l = false) :
    ∀ acc, joinSep (sChars " ") (splitSentences acc l) = acc.reverse ++ l := by
  induction l with
  | nil =>
    intro acc
    rw [splitSentences_nil]
    simp [joinSep]
  | cons c t ih =>
    intro acc
    rw [splitSentences_cons]
    split
    · rename_i hb
      simp only [Bool.and_eq_true] at hb
      have hsp : isPySpace c = true := hb.1
      have hc : c = ' ' := h1 c (List.mem_cons_self c t) hsp
      have hskip : splitSentencesSkip t = splitSentences [] t := by
        apply splitSentencesSkip_eq
        cases t with
        | nil => exact Or.inl rfl
        | cons d r =>
          refine Or.inr ⟨d, r, rfl, ?_⟩
          by_cases hd : isPySpace d = true
          · exfalso
            have hd' : d = ' ' := h1 d (by simp) hd
            have hin : hasSubstr (sChars "  ") (c :: d :: r) = true := by
              rw [hasSubstr_iff]
              exact ⟨[], r, by rw [hc, hd']; rfl⟩
            rw [hin] at h2
            exact absurd h2 (by simp)
          · simpa using hd
      rw [hskip]
      have hne := (splitSentences_ne_nil t).1 []
      have hih := ih (fun x hx hw => h1 x (List.mem_cons_of_mem _ hx) hw)
        (hasSubstr_cons_false _ c t h2) []
      cases hsp2 : splitSentences [] t with
      | nil => exact absurd hsp2 hne
      | cons y ys =>
        rw [hsp2] at hih
        rw [joinSep, hih]
        rw [hc]
        simp [sChars]
    · rename_i hb
      rw [ih (fun x hx hw => h1 x (List.mem_cons_of_mem _ hx) hw)
        (hasSubstr_cons_false _ c t h2) (c :: acc)]
      simp

/-- On a keyword-free single-spaced line the legacy sentence filter is
the identity. -/
theorem filterLineSentences_clean (S : List Char) (_hne : S ≠ [])
    (hkw : hasLegacyKeyword S = false)
    (h1 : ∀ c ∈ S, isPySpace c = true → c = ' ')
    (h2 : hasSubstr (sChars "  ") S = false) :
    filterLineSentences S = some S := by
  unfold filterLineSentences
  have hall : ∀ p ∈ splitSentences [] S, (!hasLegacyKeyword p) = true := by
    intro p hp
    have hinf := (splitSentences_infix_aux S.length S le_rfl).1 [] p hp
    simp only [List.reverse_nil, List.nil_append] at hinf
    by_cases hk : hasLegacyKeyword p = true
    · rw [hasLegacyKeyword_mono p S hinf hk] at hkw
      exact absurd hkw (by simp)
    · simpa using hk
  rw [List.filter_eq_self.mpr hall]
  have hnil := (splitSentences_ne_nil S).1 []
  rw [if_neg (by simpa using hnil)]
  have hjoin := splitSentences_join S h1 h2 []
  simp only [List.reverse_nil, List.nil_append] at hjoin
  rw [hjoin]

/-- Line breaks are whitespace. -/
theorem lineBreak_isPySpace (c : Char) (h : isLineBreak c = true) :
    isPySpace c = true := by
  have hm : c ∈ lineBreakChars := by
    simpa [isLineBreak] using h
  simp only [lineBreakChars, List.mem_cons, List.not_mem_nil, or_false] at hm
  rcases hm with h|h|h|h|h|h|h|h|h|h <;> subst h <;> decide

/-- Unpacking `cleanStrategy`. -/
theorem cleanStrategy_parts (S : List Char) (h : cleanStrategy S = true) :
    S ≠ [] ∧
    (∀ c ∈ S, isPySpace c = true → c = ' ') ∧
    (∀ c, S.head? = some c → isHr c = false ∧ isPySpace c = false) ∧
    (∀ c, S.getLast? = some c → isPySpace c = false) ∧
    hasSubstr (sChars "  ") S = false ∧
    hasLegacyKeyword S = false := by
  unfold cleanStrategy at h
  simp only [Bool.and_eq_true] at h
  obtain ⟨⟨⟨⟨⟨⟨h1, _⟩, h3⟩, h4⟩, h5⟩, h6⟩, h7⟩ := h
  refine ⟨?_, ?_, ?_, ?_, ?_, ?_⟩
  · intro he
    rw [he] at h1
    exact absurd h1 (by decide)
  · intro c hc hw
    have := List.all_eq_true.mp h3 c hc
    rw [hw] at this
    simpa using this
  · intro c hc
    rw [hc] at h4
    simp only [Bool.and_eq_true, Bool.not_eq_true'] at h4
    exact h4
  · intro c hc
    rw [hc] at h5
    simpa using h5
  · simpa using h6
  · simpa using h7

/-- Unpacking `cleanFilings`. -/
theorem cleanFilings_parts (F : List Char) (h : cleanFilings F = true) :
    F ≠ [] ∧
    (∀ c, F.head? = some c → isPySpace c = false) ∧
    (∀ c, F.getLast? = some c → isPySpace c = false) := by
  unfold cleanFilings at h
  simp only [Bool.and_eq_true] at h
  obtain ⟨⟨h1, h2⟩, h3⟩ := h
  refine ⟨?_, ?_, ?_⟩
  · intro he
    rw [he] at h1
    exact absurd h1 (by decide)
  · intro c hc
    rw [hc] at h2
    simpa using h2
  · intro c hc
    rw [hc] at h3
    simpa using h3

/-- The standard disclaimer is its newline-free body plus one blank
line. -/
theorem disclaimer_decomp :
    STANDARD_DISCLAIMER = DISCLAIMER_BODY ++ sChars "\n\n" := by decide

/-- The disclaimer body contains no newline. -/
theorem disclaimer_body_no_nl : ¬ '\n' ∈ DISCLAIMER_BODY := by decide

/-- No delimiter match begins anywhere inside the disclaimer or a
clean strategy section: the only newlines in that region are the
disclaimer's blank line and the strategy's first character is neither
whitespace nor a rule character. -/
theorem noDelimMatch_in_head (S F : List Char) (hS : cleanStrategy S = true) :
    ∀ a b, STANDARD_DISCLAIMER ++ S = a ++ b → b ≠ [] →
      matchDelimAt (b ++ (sChars "\n\n---\n\n" ++ F)) = none := by
  obtain ⟨hne, hws, hhead, _, _, _⟩ := cleanStrategy_parts S hS
  obtain ⟨s0, S', hS0⟩ : ∃ s0 S', S = s0 :: S' := by
    cases S with
    | nil => exact absurd rfl hne
    | cons a b => exact ⟨a, b, rfl⟩
  have hs0 := hhead s0 (by rw [hS0]; rfl)
  have hSnl : ∀ c ∈ S, ¬ c = '\n' := by
    intro c hc he
    subst he
    have := hws '\n' hc (by decide)
    exact absurd this (by decide)
  have hdropS : ∀ R, (S ++ R).dropWhile isPySpace = S ++ R := by
    intro R
    rw [hS0, List.cons_append, List.dropWhile_cons, hs0.2]
    simp
  have hcase_s : ∀ b, b ≠ [] → (∃ u, S = u ++ b) →
      matchDelimAt (b ++ (sChars "\n\n---\n\n" ++ F)) = none := by
    intro b hbne ⟨u, hu⟩
    cases b with
    | nil => exact absurd rfl hbne
    | cons x b' =>
      have hx : x ∈ S := by
        rw [hu]
        exact List.mem_append_right u (List.mem_cons_self x b')
      rw [List.cons_append]
      exact matchDelimAt_cons_ne x _ (hSnl x hx)
  have hcase_nn :
      matchDelimAt (('\n' :: '\n' :: S) ++ (sChars "\n\n---\n\n" ++ F)) = none := by
    rw [List.cons_append, List.cons_append]
    apply matchDelimAt_none_of_no_rule
    intro c hc
    rw [List.dropWhile_cons] at hc
    simp only [show isPySpace '\n' = true by decide, if_true] at hc
    rw [hdropS] at hc
    rw [hS0, List.cons_append] at hc
    injection hc with hc
    rw [hc] at hs0
    exact hs0.1
  have hcase_n :
      matchDelimAt (('\n' :: S) ++ (sChars "\n\n---\n\n" ++ F)) = none := by
    rw [List.cons_append]
    apply matchDelimAt_none_of_no_rule
    intro c hc
    rw [hdropS] at hc
    rw [hS0, List.cons_append] at hc
    injection hc with hc
    rw [hc] at hs0
    exact hs0.1
  intro a b hab hbne
  rw [disclaimer_decomp] at hab
  have hab2 : a ++ b = (DISCLAIMER_BODY ++ sChars "\n\n") ++ S := hab.symm
  rw [List.append_assoc] at hab2
  rcases List.append_eq_append_iff.mp hab2 with ⟨a', ha1, ha2⟩ | ⟨c', _, hc2⟩
  · -- b = a' ++ ("\n\n" ++ S) with BODY = a ++ a'
    cases a' with
    | nil =>
      have hb : b = '\n' :: '\n' :: S := by simpa using ha2
      subst hb
      exact hcase_nn
    | cons x d' =>
      have hx : x ∈ DISCLAIMER_BODY := by
        rw [ha1]
        exact List.mem_append_right a (List.mem_cons_self x d')
      have hxn : ¬ x = '\n' := fun he => disclaimer_body_no_nl (he ▸ hx)
      subst ha2
      rw [List.cons_append, List.cons_append]
      exact matchDelimAt_cons_ne x _ hxn
  · -- "\n\n" ++ S = c' ++ b with a = BODY ++ c'
    have hnn : sChars "\n\n" ++ S = c' ++ b := hc2
    have : ('\n' :: '\n' :: S) = c' ++ b := hnn
    cases c' with
    | nil =>
      have hb : b = '\n' :: '\n' :: S := by simpa using this.symm
      subst hb
      exact hcase_nn
    | cons y c'' =>
      injection this with hy hrest
      cases c'' with
      | nil =>
        have hb : b = '\n' :: S := by simpa using hrest.symm
        subst hb
        exact hcase_n
      | cons z c3 =>
        injection hrest with hz hrest2
        exact hcase_s b hbne ⟨c3, hrest2⟩

/-- The first delimiter match in a clean hardened output is the
inserted one: the split lands exactly between the disclaimer-plus-
strategy and the filings. -/
theorem searchDelim_canonical (S F : List Char) (hS : cleanStrategy S = true)
    (hF : cleanFilings F = true) :
    searchDelim []
        (STANDARD_DISCLAIMER ++ S ++ sChars "\n\n---\n\n" ++ F) =
      some (STANDARD_DISCLAIMER ++ S, F) := by
  obtain ⟨hFne, hFhead, _⟩ := cleanFilings_parts F hF
  obtain ⟨f, F', hF0⟩ : ∃ f F', F = f :: F' := by
    cases F with
    | nil => exact absurd rfl hFne
    | cons a b => exact ⟨a, b, rfl⟩
  have hf : isPySpace f = false := hFhead f (by rw [hF0]; rfl)
  have hcanon : matchDelimAt (sChars "\n\n---\n\n" ++ F) = some F := by
    rw [hF0]
    exact matchDelimAt_canonical f F' hf
  have hassoc : STANDARD_DISCLAIMER ++ S ++ sChars "\n\n---\n\n" ++ F =
      (STANDARD_DISCLAIMER ++ S) ++ (sChars "\n\n---\n\n" ++ F) := by
    simp [List.append_assoc]
  rw [hassoc]
  rw [searchDelim_skip (STANDARD_DISCLAIMER ++ S) (sChars "\n\n---\n\n" ++ F)
    (noDelimMatch_in_head S F hS) []]
  have hcons : sChars "\n\n---\n\n" ++ F =
      '\n' :: (sChars "\n---\n\n" ++ F) := rfl
  rw [hcons, searchDelim, ← hcons, hcanon]
  simp

/-- On a clean hardened output, the legacy split returns the
disclaimer-plus-strategy and the filings verbatim. -/
theorem legacySplit_canonical (S F : List Char) (hS : cleanStrategy S = true)
    (hF : cleanFilings F = true) :
    legacySplit (STANDARD_DISCLAIMER ++ S ++ sChars "\n\n---\n\n" ++ F) =
      (STANDARD_DISCLAIMER ++ S, F) := by
  obtain ⟨hFne, hFhead, hFlast⟩ := cleanFilings_parts F hF
  obtain ⟨hSne, _, _, hSlast, _, _⟩ := cleanStrategy_parts S hS
  unfold legacySplit
  rw [searchDelim_canonical S F hS hF]
  show (pstrip (STANDARD_DISCLAIMER ++ S),
    if (pstrip F).isEmpty = true then NO_FILINGS_MSG else pstrip F) =
    (STANDARD_DISCLAIMER ++ S, F)
  have hpF : pstrip F = F := pstrip_eq_self F hFhead hFlast
  have hpDS : pstrip (STANDARD_DISCLAIMER ++ S) = STANDARD_DISCLAIMER ++ S := by
    apply pstrip_eq_self
    · intro c hc
      have : (STANDARD_DISCLAIMER ++ S).head? = some 'L' := rfl
      rw [this] at hc
      injection hc with hc
      rw [← hc]
      decide
    · intro c hc
      rw [List.getLast?_append] at hc
      cases hl : S.getLast? with
      | none => exact absurd (List.getLast?_eq_none_iff.mp hl) hSne
      | some d =>
        rw [hl] at hc
        simp only [Option.or_some] at hc
        injection hc with hc
        rw [← hc]
        exact hSlast d hl
  rw [hpF, hpDS]
  rw [if_neg (by simpa using hFne)]

/-- On a clean hardened output, the strategy-content pass is the
identity on the strategy section. -/
theorem legacyStrategyContent_canonical (S F : List Char)
    (hS : cleanStrategy S = true) (hF : cleanFilings F = true) :
    legacyStrategyContent
        (STANDARD_DISCLAIMER ++ S ++ sChars "\n\n---\n\n" ++ F) = S := by
  obtain ⟨hSne, hws, hShead, hSlast, hdouble, hkw⟩ := cleanStrategy_parts S hS
  have hpS : pstrip S = S :=
    pstrip_eq_self S (fun c hc => (hShead c hc).2) hSlast
  unfold legacyStrategyContent
  rw [legacySplit_canonical S F hS hF]
  simp only []
  rw [if_pos (List.isPrefixOf_iff_prefix.mpr (List.prefix_append _ _))]
  rw [List.drop_left, hpS]
  have hnobreak : ∀ c ∈ S, isLineBreak c = false := by
    intro c hc
    by_cases hb : isLineBreak c = true
    · have hw := hws c hc (lineBreak_isPySpace c hb)
      rw [hw] at hb
      exact absurd hb (by decide)
    · simpa using hb
  rw [splitlines_single S hSne hnobreak]
  show pstrip (joinSep (sChars "\n") (legacyCleanLines [S])) = S
  have hclean : legacyCleanLines [S] = [S] := by
    show (if (pstrip S).isEmpty = true then [] :: legacyCleanLines [] else
      match filterLineSentences S with
      | none => legacyCleanLines []
      | some cl => cl :: legacyCleanLines []) = [S]
    rw [hpS, if_neg (by simpa using hSne)]
    rw [filterLineSentences_clean S hSne hkw hws hdouble]
    rfl
  rw [hclean]
  show pstrip S = S
  exact hpS

/-- Any input whose stripped form does not look like JSON is sent to
the legacy pass and returns normally. -/
theorem validate_and_fix_nonjson (parse : List Char → PydanticParse)
    (content : List Char)
    (hb : (pstrip content).head? ≠ some '\x7b')
    (hs : (pstrip content).head? ≠ some '[') :
    validate_and_fix parse content =
      Except.ok (validate_and_fix_legacy content) := by
  unfold validate_and_fix
  rw [if_neg (fun h => h.elim hb hs)]

/-- A clean hardened output is a fixed point of the hardener. -/
theorem hardened_output_fixed (parse : List Char → PydanticParse)
    (S F : List Char) (hS : cleanStrategy S = true)
    (hF : cleanFilings F = true) :
    validate_and_fix parse
        (STANDARD_DISCLAIMER ++ S ++ sChars "\n\n---\n\n" ++ F) =
      Except.ok (STANDARD_DISCLAIMER ++ S ++ sChars "\n\n---\n\n" ++ F) := by
  obtain ⟨hFne, hFhead, hFlast⟩ := cleanFilings_parts F hF
  obtain ⟨hSne, _, _, hSlast, _, _⟩ := cleanStrategy_parts S hS
  have hleg : validate_and_fix_legacy
      (STANDARD_DISCLAIMER ++ S ++ sChars "\n\n---\n\n" ++ F) =
      STANDARD_DISCLAIMER ++ S ++ sChars "\n\n---\n\n" ++ F := by
    unfold validate_and_fix_legacy
    rw [legacyStrategyContent_canonical S F hS hF,
      legacySplit_canonical S F hS hF]
  have hpy : pstrip (STANDARD_DISCLAIMER ++ S ++ sChars "\n\n---\n\n" ++ F) =
      STANDARD_DISCLAIMER ++ S ++ sChars "\n\n---\n\n" ++ F := by
    apply pstrip_eq_self
    · intro c hc
      have : (STANDARD_DISCLAIMER ++ S ++ sChars "\n\n---\n\n" ++ F).head? =
          some 'L' := rfl
      rw [this] at hc
      injection hc with hc
      rw [← hc]
      decide
    · intro c hc
      rw [List.append_assoc, List.append_assoc, List.getLast?_append] at hc
      have hFlast' : ∃ d, F.getLast? = some d := by
        cases hl : F.getLast? with
        | none => exact absurd (List.getLast?_eq_none_iff.mp hl) hFne
        | some d => exact ⟨d, rfl⟩
      obtain ⟨d, hd⟩ := hFlast'
      have : (S ++ (sChars "\n\n---\n\n" ++ F)).getLast? = some d := by
        rw [List.getLast?_append, List.getLast?_append, hd]
        rfl
      rw [this] at hc
      simp only [Option.or_some] at hc
      injection hc with hc
      rw [← hc]
      exact hFlast d hd
  have hhd : (STANDARD_DISCLAIMER ++ S ++ sChars "\n\n---\n\n" ++ F).head? =
      some 'L' := rfl
  rw [validate_and_fix_nonjson parse _ (by rw [hpy, hhd]; simp)
    (by rw [hpy, hhd]; simp), hleg]

/-- C8 counterexample: on the model output consisting of a single
opening curly brace, `model_validate_json` raises
`pydantic.ValidationError`, the dead `json.JSONDecodeError` fallback is
never reached, and `validate_and_fix` raises instead of returning — the
exception crosses the formatter node boundary, refuting "never throws
past the engine boundary" and "always contains the delimiter". -/
theorem validate_and_fix_raises_on_brace :
    validate_and_fix pydanticRejectsAll (sChars "\x7b") =
      Except.error (sChars "pydantic validation error") := rfl

/-- C8 (amended): for every model output whose stripped form does not
begin with a curly brace or a square bracket, `validate_and_fix`
returns normally with the legacy-hardened text, and that text always
contains the required `---` section delimiter. -/
theorem hardener_returns_with_delimiter (parse : List Char → PydanticParse)
    (content : List Char)
    (hb : (pstrip content).head? ≠ some '\x7b')
    (hs : (pstrip content).head? ≠ some '[') :
    validate_and_fix parse content =
      Except.ok (validate_and_fix_legacy content) ∧
    hasSubstr (sChars "---") (validate_and_fix_legacy content) = true := by
  refine ⟨validate_and_fix_nonjson parse content hb hs, ?_⟩
  rw [hasSubstr_iff]
  refine ⟨STANDARD_DISCLAIMER ++ legacyStrategyContent content ++ sChars "\n\n",
    sChars "\n\n" ++ (legacySplit content).2, ?_⟩
  show STANDARD_DISCLAIMER ++ legacyStrategyContent content ++ sChars "\n\n"
      ++ sChars "---" ++ (sChars "\n\n" ++ (legacySplit content).2) =
    validate_and_fix_legacy content
  have h1 : sChars "\n\n" ++ (sChars "---" ++ (sChars "\n\n"
      ++ (legacySplit content).2)) =
      sChars "\n\n---\n\n" ++ (legacySplit content).2 := rfl
  unfold validate_and_fix_legacy
  simp only [List.append_assoc, h1]

/-- C8 witness: at the concrete non-JSON input `"Hello"` with the
always-rejecting pydantic oracle, the hardener returns normally and its
output contains the delimiter. -/
theorem hardener_returns_with_delimiter_witness :
    ((pstrip (sChars "Hello")).head? ≠ some '\x7b' ∧
     (pstrip (sChars "Hello")).head? ≠ some '[') ∧
    (validate_and_fix pydanticRejectsAll (sChars "Hello") =
        Except.ok (validate_and_fix_legacy (sChars "Hello")) ∧
      hasSubstr (sChars "---")
        (validate_and_fix_legacy (sChars "Hello")) = true) :=
  ⟨⟨by decide, by decide⟩,
   hardener_returns_with_delimiter pydanticRejectsAll (sChars "Hello")
     (by decide) (by decide)⟩

set_option maxRecDepth 20000 in
/-- C7 counterexample: the hardener is not idempotent on the empty
model output.  Hardening `""` yields the standard disclaimer followed
by the `---` delimiter and the no-filings message; running the
hardener again strips the disclaimer prefix but the keyword scan of
the legacy pass drops only the sentences containing a disclaimer
keyword, leaving the residual sentence "Always consult with a
qualified attorney." inside the strategy section, so the second
output differs from the first. -/
theorem hardener_not_idempotent_on_empty :
    validate_and_fix pydanticRejectsAll (sChars "") =
      Except.ok (validate_and_fix_legacy (sChars "")) ∧
    validate_and_fix pydanticRejectsAll (validate_and_fix_legacy (sChars "")) =
      Except.ok (validate_and_fix_legacy (validate_and_fix_legacy (sChars ""))) ∧
    validate_and_fix_legacy (validate_and_fix_legacy (sChars "")) ≠
      validate_and_fix_legacy (sChars "") :=
  ⟨rfl, rfl, by decide⟩

/-- C7 (amended): the hardener is idempotent on every non-JSON-looking
input whose legacy strategy content is clean (nonempty single-line
single-spaced ASCII text free of rule characters and disclaimer
keywords) and whose filings section is nonempty and stripped: on such
inputs `validate_and_fix` returns the legacy-hardened text, and
hardening that text again returns it unchanged. -/
theorem hardener_idempotent_on_clean (parse : List Char → PydanticParse)
    (x : List Char)
    (hb : (pstrip x).head? ≠ some '\x7b')
    (hs : (pstrip x).head? ≠ some '[')
    (hS : cleanStrategy (legacyStrategyContent x) = true)
    (hF : cleanFilings ((legacySplit x).2) = true) :
    validate_and_fix parse x = Except.ok (validate_and_fix_legacy x) ∧
    validate_and_fix parse (validate_and_fix_legacy x) =
      Except.ok (validate_and_fix_legacy x) := by
  refine ⟨validate_and_fix_nonjson parse x hb hs, ?_⟩
  have hform : validate_and_fix_legacy x =
      STANDARD_DISCLAIMER ++ legacyStrategyContent x ++ sChars "\n\n---\n\n"
        ++ (legacySplit x).2 := rfl
  rw [hform]
  exact hardened_output_fixed parse _ _ hS hF

set_option maxRecDepth 20000 in
/-- C7 witness: the concrete model answer `hardenedSample` satisfies
the cleanliness hypotheses, and on it the hardener is idempotent. -/
theorem hardener_idempotent_on_clean_witness :
    ((pstrip hardenedSample).head? ≠ some '\x7b' ∧
     (pstrip hardenedSample).head? ≠ some '[' ∧
     cleanStrategy (legacyStrategyContent hardenedSample) = true ∧
     cleanFilings ((legacySplit hardenedSample).2) = true) ∧
    (validate_and_fix pydanticRejectsAll hardenedSample =
        Except.ok (validate_and_fix_legacy hardenedSample) ∧
      validate_and_fix pydanticRejectsAll
          (validate_and_fix_legacy hardenedSample) =
        Except.ok (validate_and_fix_legacy hardenedSample)) :=
  ⟨⟨by decide, by decide, by decide, by decide⟩,
   hardener_idempotent_on_clean pydanticRejectsAll hardenedSample
     (by decide) (by decide) (by decide) (by decide)⟩

end LawSage
